import Mathlib

/-!
Verification of the sentiment-ingestion pipeline of MoodRingMarkets
(`src/scripts/market_sentiment_csv.js`; the same functions appear in
`src/unnamed/part_000`).

Shallow embedding conventions:
* JavaScript strings are modelled as `List Char` (`JStr`).  JS `String.prototype.trim`
  and the regex class `\s` remove a larger Unicode whitespace set than the four
  JSON whitespace characters; we model both with the common set
  `{' ', '\t', '\n', '\r'}` — the two sets agree on every input relevant to the
  claims, and on every string accepted by `JSON.parse` the boundary characters
  can only be from this common set.
* JavaScript numbers are modelled exactly: finite values as rationals (`ℚ`),
  plus the `Infinity`, `-Infinity` and `NaN` sentinels (`JNum`).  Double
  rounding is not modelled; every comparison appearing in the claims is exact
  in both semantics at the relevant values.
* `undefined` is modelled by `Option.none` at the points where the source can
  produce it (absent object properties, `parseScore` failure).
-/

/- The Batteries rational operations are `@[irreducible]`, which blocks
`decide`-style evaluation of the executable model; restore default
reducibility for them locally. -/
attribute [local semireducible] Rat.add Rat.mul Rat.inv Rat.sub Rat.ofScientific

/-- JavaScript string, as a list of characters. -/
abbrev JStr := List Char

/-- Build a `JStr` from a Lean string literal. -/
def jstr (s : String) : JStr := s.toList

/-- The backtick character (code 96). -/
def btick : Char := Char.ofNat 96

/-- The ASCII apostrophe (code 39). -/
def apos : Char := Char.ofNat 39

/-- Typographic quotes replaced by `cleanJsonString`:
left/right double quote (U+201C/U+201D) and left/right single quote
(U+2018/U+2019). -/
def lDq : Char := Char.ofNat 0x201C
def rDq : Char := Char.ofNat 0x201D
def lSq : Char := Char.ofNat 0x2018
def rSq : Char := Char.ofNat 0x2019

/-- Whitespace set shared by the model of JS `trim`, the regex class `\s`
and the JSON grammar (see the header comment). -/
def isJsWsChar (c : Char) : Bool :=
  c = ' ' || c = '\t' || c = '\n' || c = '\r'

/-- Drop trailing whitespace. -/
def dropTrailingWs (l : JStr) : JStr :=
  (l.reverse.dropWhile isJsWsChar).reverse

/-- Model of `String.prototype.trim`. -/
def jsTrim (l : JStr) : JStr :=
  dropTrailingWs (l.dropWhile isJsWsChar)

/-- A JavaScript number: a finite rational, a signed infinity, or NaN. -/
inductive JNum where
  | fin (q : ℚ)
  | inf (pos : Bool)
  | nan
deriving DecidableEq, Repr

/-- `Number.isNaN`. -/
def JNum.isNan : JNum → Bool
  | .nan => true
  | _ => false

/-- JS `<` on numbers (any comparison with NaN is false). -/
def jsLt : JNum → JNum → Bool
  | .nan, _ => false
  | _, .nan => false
  | .fin a, .fin b => decide (a < b)
  | .fin _, .inf p => p
  | .inf p, .fin _ => !p
  | .inf p, .inf q => !p && q

/-- JS `<=` on numbers (any comparison with NaN is false). -/
def jsLe : JNum → JNum → Bool
  | .nan, _ => false
  | _, .nan => false
  | .fin a, .fin b => decide (a ≤ b)
  | .fin _, .inf p => p
  | .inf p, .fin _ => !p
  | .inf p, .inf q => p = q || (!p && q)

/-- `Math.min` restricted to two arguments. -/
def jsMin : JNum → JNum → JNum
  | .nan, _ => .nan
  | _, .nan => .nan
  | .fin a, .fin b => .fin (min a b)
  | .inf true, x => x
  | .inf false, _ => .inf false
  | x, .inf true => x
  | _, .inf false => .inf false

/-- `Math.max` restricted to two arguments. -/
def jsMax : JNum → JNum → JNum
  | .nan, _ => .nan
  | _, .nan => .nan
  | .fin a, .fin b => .fin (max a b)
  | .inf true, _ => .inf true
  | .inf false, x => x
  | _, .inf true => .inf true
  | x, .inf false => x

/-- Division of a JS number by 100 (`n / 100`). -/
def jsDiv100 : JNum → JNum
  | .fin q => .fin (q / 100)
  | .inf p => .inf p
  | .nan => .nan

/-- Multiplication of a JS number by a positive integer literal (`n * 1000`). -/
def jsMulPos (n : JNum) (k : ℚ) : JNum :=
  match n with
  | .fin q => .fin (q * k)
  | .inf p => .inf p
  | .nan => .nan

/-- JS falsiness of a number value (`0` and `NaN` are falsy). -/
def jsFalsyNum : JNum → Bool
  | .fin q => decide (q = 0)
  | .inf _ => false
  | .nan => true

/-- ASCII decimal digit. -/
def isDigitChar (c : Char) : Bool := decide ('0' ≤ c ∧ c ≤ '9')

/-- Value of a run of decimal digits. -/
def digitsToNat (ds : JStr) : ℕ :=
  ds.foldl (fun a c => a * 10 + (c.toNat - 48)) 0

/-- Value of a hexadecimal digit, if any. -/
def hexDigitVal (c : Char) : Option ℕ :=
  if isDigitChar c then some (c.toNat - 48)
  else if 'a' ≤ c ∧ c ≤ 'f' then some (c.toNat - 87)
  else if 'A' ≤ c ∧ c ≤ 'F' then some (c.toNat - 55)
  else none

/-- Value of a run of digits in a given base, failing on a non-digit. -/
def radixDigits (base : ℕ) (l : JStr) : Option ℕ :=
  l.foldl (fun acc c =>
    match acc, hexDigitVal c with
    | some a, some d => if d < base then some (a * base + d) else none
    | _, _ => none) (some 0)

/-- Unsigned decimal literal of the JS `Number(string)` grammar
(`digits [. digits] [exp]` or `. digits [exp]`), required to span the whole
input.  Returns the exact rational value. -/
def parseUnsignedDec (l : JStr) : Option ℚ :=
  let ip := l.takeWhile isDigitChar
  let r1 := l.dropWhile isDigitChar
  let (fp, r2) :=
    match r1 with
    | c :: r => if c = '.' then (r.takeWhile isDigitChar, r.dropWhile isDigitChar) else ([], r1)
    | [] => ([], r1)
  if ip = [] ∧ fp = [] then none
  else
    let base : ℚ := (digitsToNat ip : ℚ) + mkRat (digitsToNat fp) (10 ^ fp.length)
    match r2 with
    | [] => some base
    | c :: r =>
      if c = 'e' ∨ c = 'E' then
        let (eneg, r3) :=
          match r with
          | '+' :: rr => (false, rr)
          | '-' :: rr => (true, rr)
          | _ => (false, r)
        let eds := r3.takeWhile isDigitChar
        if eds = [] ∨ r3.dropWhile isDigitChar ≠ [] then none
        else some (base * (if eneg then mkRat 1 (10 ^ digitsToNat eds) else (10 : ℚ) ^ digitsToNat eds))
      else none

/-- Model of JS `Number(string)`: trim, empty string gives `0`, optional sign
followed by `Infinity` or a decimal literal, or an unsigned radix literal
(`0x`/`0o`/`0b`); anything else is `NaN`. -/
def jsStringToNumber (s : JStr) : JNum :=
  let t := jsTrim s
  match t with
  | [] => .fin 0
  | c :: r =>
    if c = '+' ∨ c = '-' then
      let neg := c = '-'
      if r = jstr "Infinity" then .inf (!neg)
      else
        match parseUnsignedDec r with
        | some q => .fin (if neg then -q else q)
        | none => .nan
    else if t = jstr "Infinity" then .inf true
    else
      match t with
      | '0' :: x :: ds =>
        if x = 'x' ∨ x = 'X' then
          match ds, radixDigits 16 ds with
          | _ :: _, some n => .fin (n : ℚ)
          | _, _ => .nan
        else if x = 'o' ∨ x = 'O' then
          match ds, radixDigits 8 ds with
          | _ :: _, some n => .fin (n : ℚ)
          | _, _ => .nan
        else if x = 'b' ∨ x = 'B' then
          match ds, radixDigits 2 ds with
          | _ :: _, some n => .fin (n : ℚ)
          | _, _ => .nan
        else
          match parseUnsignedDec t with
          | some q => .fin q
          | none => .nan
      | _ =>
        match parseUnsignedDec t with
        | some q => .fin q
        | none => .nan

/-! ### JSON values and `JSON.parse` -/

/-- A JSON value as produced by `JSON.parse`.  Objects keep own enumerable
properties as an association list in insertion order (duplicate keys collapse
with the later value winning, as in V8); the integer-index-first enumeration
order of JS objects is not modelled — no claim depends on enumeration order. -/
inductive JsVal where
  | null
  | bool (b : Bool)
  | num (q : ℚ)
  | str (s : JStr)
  | arr (items : List JsVal)
  | obj (fields : List (JStr × JsVal))

/-- Property read `v[k]` for the fixed, non-prototype keys used by the
pipeline (`label`, `score`, `summary`, `reason`, `explanation`, `tickers`,
`ticker`, `symbol`, `code`): `none` models `undefined`.  Prototype-chain
lookups are not modelled. -/
def getProp (v : JsVal) (k : JStr) : Option JsVal :=
  match v with
  | .obj fields => fields.lookup k
  | _ => none

/-- JS truthiness of a value. -/
def jsTruthy : JsVal → Bool
  | .null => false
  | .bool b => b
  | .num q => decide (q ≠ 0)
  | .str s => decide (s ≠ [])
  | .arr _ => true
  | .obj _ => true

/-- `v && typeof v === 'object'`: a truthy value of type object
(`typeof null` is `'object'` but null is falsy). -/
def jsObject : JsVal → Bool
  | .arr _ => true
  | .obj _ => true
  | _ => false

/-- Assignment `o[k] = v` on a JS object: update in place if the key exists
(keeping its position), else append. -/
def jsObjInsert {α : Type} (fs : List (JStr × α)) (k : JStr) (v : α) : List (JStr × α) :=
  match fs with
  | [] => [(k, v)]
  | (k', v') :: rest => if k' = k then (k', v) :: rest else (k', v') :: jsObjInsert rest k v

/-- Decimal rendering of a natural number. -/
def natToJStr (n : ℕ) : JStr := Nat.toDigits 10 n

/-- Rendering of a rational as JS renders a number.  Exact for integers and
finite decimal fractions (the only values `JSON.parse` produces); other
rationals get a `num/den` fallback rendering.  The precise digit string is
irrelevant to every claim: it is only consumed by the label synonym lookup,
whose keys are purely alphabetic. -/
def numToJStr (q : ℚ) : JStr :=
  let sign : JStr := if q < 0 then ['-'] else []
  let n := q.num.natAbs
  let d := q.den
  if d = 1 then sign ++ natToJStr n
  else
    let k := (List.range 30).find? (fun k => d ∣ 10 ^ k)
    match k with
    | some k =>
      let scaled := n * (10 ^ k / d)
      let ds := natToJStr scaled
      let ds := (List.replicate (k + 1 - ds.length) '0') ++ ds
      sign ++ ds.take (ds.length - k) ++ '.' :: ds.drop (ds.length - k)
    | none => sign ++ natToJStr n ++ '/' :: natToJStr d

mutual

/-- Rendering of an array element inside `Array.prototype.join`: `null`
renders empty, nested arrays render joined. -/
def jsElemToString : JsVal → JStr
  | .null => []
  | .bool b => if b then jstr "true" else jstr "false"
  | .num q => numToJStr q
  | .str s => s
  | .obj _ => jstr "[object Object]"
  | .arr items => jsElemsJoin items

/-- `join(',')` over array elements. -/
def jsElemsJoin : List JsVal → JStr
  | [] => []
  | [x] => jsElemToString x
  | x :: xs => jsElemToString x ++ ',' :: jsElemsJoin xs

end

/-- JS `String(v)` conversion (array join semantics: `null` elements render
empty; nested objects render `[object Object]`). -/
def jsToString : JsVal → JStr
  | .null => jstr "null"
  | .bool b => if b then jstr "true" else jstr "false"
  | .num q => numToJStr q
  | .str s => s
  | .obj _ => jstr "[object Object]"
  | .arr items => jsElemsJoin items

/-- Skip JSON whitespace. -/
def skipWs (l : JStr) : JStr := l.dropWhile isJsWsChar

/-- Body of a JSON string literal (after the opening quote): accumulate until
the closing quote, handling escapes.  `\uXXXX` escapes are mapped through
`Char.ofNat` (lone surrogates, unrepresentable in `Char`, collapse to the
default character — irrelevant to the claims). -/
def parseStrBody : ℕ → JStr → JStr → Option (JStr × JStr)
  | 0, _, _ => none
  | _ + 1, [], _ => none
  | f + 1, c :: rest, acc =>
    if c = '"' then some (acc.reverse, rest)
    else if c = '\\' then
      match rest with
      | [] => none
      | e :: r2 =>
        if e = '"' ∨ e = '\\' ∨ e = '/' then parseStrBody f r2 (e :: acc)
        else if e = 'b' then parseStrBody f r2 (Char.ofNat 8 :: acc)
        else if e = 'f' then parseStrBody f r2 (Char.ofNat 12 :: acc)
        else if e = 'n' then parseStrBody f r2 ('\n' :: acc)
        else if e = 'r' then parseStrBody f r2 ('\r' :: acc)
        else if e = 't' then parseStrBody f r2 ('\t' :: acc)
        else if e = 'u' then
          match r2 with
          | h1 :: h2 :: h3 :: h4 :: r3 =>
            match hexDigitVal h1, hexDigitVal h2, hexDigitVal h3, hexDigitVal h4 with
            | some a, some b, some c', some d =>
              parseStrBody f r3 (Char.ofNat (a * 4096 + b * 256 + c' * 16 + d) :: acc)
            | _, _, _, _ => none
          | _ => none
        else none
    else if c.toNat < 32 then none
    else parseStrBody f rest (c :: acc)

/-- Exponent suffix of a JSON number: consumes `e|E [+|-] digits` when
present, otherwise consumes nothing. -/
def parseExpSuffix (v : ℚ) (l : JStr) : Option (ℚ × JStr) :=
  match l with
  | [] => some (v, [])
  | c :: r =>
    if c = 'e' ∨ c = 'E' then
      let sr : Bool × JStr :=
        match r with
        | d :: rr => if d = '+' then (false, rr) else if d = '-' then (true, rr) else (false, r)
        | [] => (false, r)
      let eds := sr.2.takeWhile isDigitChar
      if eds = [] then none
      else some (v * (if sr.1 then mkRat 1 (10 ^ digitsToNat eds) else (10 : ℚ) ^ digitsToNat eds),
                 sr.2.dropWhile isDigitChar)
    else some (v, c :: r)

/-- A JSON number literal (strict JSON grammar: optional `-`, integer part
without leading zeros, optional fraction, optional exponent). -/
def parseNumber (l : JStr) : Option (ℚ × JStr) :=
  let sl : Bool × JStr :=
    match l with
    | c :: r => if c = '-' then (true, r) else (false, l)
    | [] => (false, l)
  let neg := sl.1
  let l1 := sl.2
  let ip := l1.takeWhile isDigitChar
  let l2 := l1.dropWhile isDigitChar
  if ip = [] then none
  else if 1 < ip.length ∧ ip.head? = some '0' then none
  else
    match l2 with
    | c2 :: r2 =>
      if c2 = '.' then
        let fds := r2.takeWhile isDigitChar
        if fds = [] then none
        else
          let base : ℚ := (digitsToNat ip : ℚ) + mkRat (digitsToNat fds) (10 ^ fds.length)
          parseExpSuffix (if neg then -base else base) (r2.dropWhile isDigitChar)
      else
        parseExpSuffix (if neg then -(digitsToNat ip : ℚ) else (digitsToNat ip : ℚ)) (c2 :: r2)
    | [] =>
      parseExpSuffix (if neg then -(digitsToNat ip : ℚ) else (digitsToNat ip : ℚ)) []

/-- The three mutually recursive jobs of the JSON value parser: a value, the
members of an object after `{` and leading whitespace, the elements of an
array after `[` and leading whitespace.  Bundled into one index so the
parser is a single structurally-recursive (hence kernel-computable)
function on its fuel. -/
inductive PJob where
  | val (l : JStr)
  | members (l : JStr) (acc : List (JStr × JsVal))
  | elems (l : JStr) (acc : List JsVal)

/-- The JSON value parser over jobs; see `parseValue`. -/
def parseJ : ℕ → PJob → Option (JsVal × JStr)
  | 0, _ => none
  | _ + 1, .val [] => none
  | f + 1, .val (c :: rest) =>
    if c = '{' then
      match skipWs rest with
      | [] => none
      | d :: l2 => if d = '}' then some (.obj [], l2) else parseJ f (.members (d :: l2) [])
    else if c = '[' then
      match skipWs rest with
      | [] => none
      | d :: l2 => if d = ']' then some (.arr [], l2) else parseJ f (.elems (d :: l2) [])
    else if c = '"' then
      (parseStrBody f rest []).map (fun p => (.str p.1, p.2))
    else if c = 't' then
      if rest.take 3 = ['r', 'u', 'e'] then some (.bool true, rest.drop 3) else none
    else if c = 'f' then
      if rest.take 4 = ['a', 'l', 's', 'e'] then some (.bool false, rest.drop 4) else none
    else if c = 'n' then
      if rest.take 3 = ['u', 'l', 'l'] then some (.null, rest.drop 3) else none
    else
      (parseNumber (c :: rest)).map (fun p => (.num p.1, p.2))
  | _ + 1, .members [] _ => none
  | f + 1, .members (c :: rest) acc =>
    if c = '"' then
      match parseStrBody f rest [] with
      | none => none
      | some (k, r1) =>
        match skipWs r1 with
        | [] => none
        | d :: r2 =>
          if d = ':' then
            match parseJ f (.val (skipWs r2)) with
            | none => none
            | some (v, r3) =>
              match skipWs r3 with
              | [] => none
              | e :: r4 =>
                if e = ',' then parseJ f (.members (skipWs r4) (jsObjInsert acc k v))
                else if e = '}' then some (.obj (jsObjInsert acc k v), r4)
                else none
          else none
    else none
  | f + 1, .elems l acc =>
    match parseJ f (.val l) with
    | none => none
    | some (v, r1) =>
      match skipWs r1 with
      | [] => none
      | e :: r2 =>
        if e = ',' then parseJ f (.elems (skipWs r2) (acc ++ [v]))
        else if e = ']' then some (.arr (acc ++ [v]), r2)
        else none

/-- A JSON value; the input must start directly with the value (callers skip
leading whitespace). -/
def parseValue (f : ℕ) (l : JStr) : Option (JsVal × JStr) := parseJ f (.val l)

/-- Model of `JSON.parse(s)`, returning `none` where JS throws.
`JSON.parse` ignores leading and trailing JSON whitespace, so the input is
trimmed first; the fuel `2·|t| + 2` is enough for any input (each recursive
call consumes at least one character per two fuel units). -/
def jsonParse (s : JStr) : Option JsVal :=
  let t := jsTrim s
  match parseValue (2 * t.length + 2) t with
  | some (v, r) => if r.all isJsWsChar then some v else none
  | none => none

/-! ### The JSON extractor (`cleanJsonString`, `tryRepairs`, brace match) -/

/-- `safeParseJson`: `JSON.parse` with the exception mapped to `null`
(modelled as `none`). -/
def safeParseJson (s : JStr) : Option JsVal := jsonParse s

/-- `s.replace(/^```json\s*/i, '')`: strip a leading ` ```json ` fence
(letters case-insensitive) together with the whitespace after it. -/
def stripFenceJson (l : JStr) : JStr :=
  match l with
  | b1 :: b2 :: b3 :: c1 :: c2 :: c3 :: c4 :: rest =>
    if b1 = btick ∧ b2 = btick ∧ b3 = btick ∧
       c1.toLower = 'j' ∧ c2.toLower = 's' ∧ c3.toLower = 'o' ∧ c4.toLower = 'n'
    then skipWs rest else l
  | _ => l

/-- `s.replace(/^```\s*/i, '')`: strip a leading ` ``` ` fence and the
whitespace after it. -/
def stripFenceBare (l : JStr) : JStr :=
  match l with
  | b1 :: b2 :: b3 :: rest =>
    if b1 = btick ∧ b2 = btick ∧ b3 = btick then skipWs rest else l
  | _ => l

/-- `s.replace(/```\s*$/i, '')`: the regex matches exactly when the string,
after its trailing whitespace, ends in three backticks; the match (backticks
plus trailing whitespace) is removed. -/
def stripFenceEnd (l : JStr) : JStr :=
  let t := dropTrailingWs l
  match t.reverse with
  | b1 :: b2 :: b3 :: rest =>
    if b1 = btick ∧ b2 = btick ∧ b3 = btick then rest.reverse else l
  | _ => l

/-- Typographic-quote replacement of `cleanJsonString`. -/
def deSmartQuote (c : Char) : Char :=
  if c = lDq ∨ c = rDq then '"'
  else if c = lSq ∨ c = rSq then apos
  else c

/-- `cleanJsonString(raw)` from `market_sentiment_csv.js:58`: empty (falsy)
input gives `''`; otherwise trim, strip code fences, trim again, replace
typographic quotes. -/
def cleanJsonString (raw : JStr) : JStr :=
  if raw = [] then []
  else
    let s1 := jsTrim raw
    let s2 := jsTrim (stripFenceEnd (stripFenceBare (stripFenceJson s1)))
    s2.map deSmartQuote

/-- One pass of `t.replace(/,(\s*[}\]])/g, '$1')`: every comma immediately
followed by whitespace and a closing bracket is removed; scanning resumes
after the bracket, as the global regex does. -/
def rmTrailingCommasGo : ℕ → JStr → JStr
  | 0, l => l
  | _ + 1, [] => []
  | f + 1, c :: rest =>
    if c = ',' then
      let w := rest.takeWhile isJsWsChar
      match rest.dropWhile isJsWsChar with
      | d :: tail =>
        if d = '}' ∨ d = ']' then w ++ d :: rmTrailingCommasGo f tail
        else c :: rmTrailingCommasGo f rest
      | [] => c :: rmTrailingCommasGo f rest
    else c :: rmTrailingCommasGo f rest

/-- Remove trailing commas before `}` or `]`. -/
def rmTrailingCommas (l : JStr) : JStr := rmTrailingCommasGo l.length l

/-- `t.replace(/'([^']*)'/g, '"$1"')`: every single-quoted segment becomes
double-quoted; an unpaired quote ends matching. -/
def sqToDq : ℕ → JStr → JStr
  | 0, l => l
  | _ + 1, [] => []
  | f + 1, c :: rest =>
    if c = apos then
      let body := rest.takeWhile (fun x => ¬ x = apos)
      match rest.dropWhile (fun x => ¬ x = apos) with
      | d :: tail =>
        if d = apos then '"' :: body ++ '"' :: sqToDq f tail
        else c :: rest
      | [] => c :: rest
    else c :: sqToDq f rest

/-- `tryRepairs(s)` from `market_sentiment_csv.js:68`: drop trailing commas;
then, only when the string has no double quote but does have a single quote,
convert single-quoted segments to double quotes. -/
def tryRepairs (s : JStr) : JStr :=
  let t := rmTrailingCommas s
  if ¬ t.contains '"' ∧ t.contains apos then sqToDq t.length t else t

/-- `cleaned.match(/\{[\s\S]*\}/)`: the greedy substring from the first `{`
to the last `}` after it, if any. -/
def braceMatch (s : JStr) : Option JStr :=
  match s.dropWhile (fun c => ¬ c = '{') with
  | [] => none
  | l =>
    match l.reverse.dropWhile (fun c => ¬ c = '}') with
    | [] => none
    | r => some r.reverse

/-- The JSON-extraction sublayer of `scoreMarket`
(`market_sentiment_csv.js:194-207`, spec §4.1): clean, parse; on failure,
take the brace-matched substring, apply repairs, parse again.  (In
`scoreMarket` the same fallback also runs when the parsed value is rejected
by the schema coercer; the extraction of a parsed value is as modelled
here.) -/
def jsonExtract (raw : JStr) : Option JsVal :=
  let cleaned := cleanJsonString raw
  match safeParseJson cleaned with
  | some v => some v
  | none =>
    let cleaned2 := (braceMatch cleaned).getD cleaned
    safeParseJson (tryRepairs cleaned2)

/-! ### The schema coercer (`normalizeLabel`, `parseScore`,
`normalizeTickerKey`, `coerceSentimentShape`) -/

/-- The fixed synonym table of `normalizeLabel`
(`market_sentiment_csv.js:83-99`). -/
def labelSynonyms : List (JStr × JStr) :=
  [ (jstr "verybearish", jstr "VeryBearish"),
    (jstr "bearish", jstr "Bearish"),
    (jstr "negative", jstr "Bearish"),
    (jstr "downbeat", jstr "Bearish"),
    (jstr "neutral", jstr "Neutral"),
    (jstr "mixed", jstr "Neutral"),
    (jstr "balanced", jstr "Neutral"),
    (jstr "bullish", jstr "Bullish"),
    (jstr "positive", jstr "Bullish"),
    (jstr "upbeat", jstr "Bullish"),
    (jstr "slightlybullish", jstr "Bullish"),
    (jstr "somewhatbullish", jstr "Bullish"),
    (jstr "verybullish", jstr "VeryBullish"),
    (jstr "verypositive", jstr "VeryBullish"),
    (jstr "verynegative", jstr "VeryBearish") ]

/-- `normalizeLabel(label)` (`market_sentiment_csv.js:80`): falsy input gives
`null`; otherwise stringify, lower-case, delete whitespace and underscores,
and look the key up in the synonym table (`map[k] || null`; the object-literal
lookup is modelled as own-key lookup, prototype keys such as `"constructor"`
are not modelled). -/
def normalizeLabel (label : Option JsVal) : Option JStr :=
  match label with
  | none => none
  | some v =>
    if jsTruthy v = false then none
    else
      let k := ((jsToString v).map Char.toLower).filter
        (fun c => ¬ (isJsWsChar c = true ∨ c = '_'))
      labelSynonyms.lookup k

/-- Uppercase ASCII letter or digit (the regex class `[A-Z0-9]`). -/
def isUpperAlnum (c : Char) : Bool :=
  decide ('A' ≤ c ∧ c ≤ 'Z') || isDigitChar c

/-- `normalizeTickerKey(k)` on a string (`market_sentiment_csv.js:103`):
trim, upper-case, require 1–6 characters all in `[A-Z0-9]`. -/
def normalizeTickerKey (k : JStr) : Option JStr :=
  let up := (jsTrim k).map Char.toUpper
  if up = [] ∨ 6 < up.length ∨ up.any (fun c => isUpperAlnum c = false) then none
  else some up

/-- `normalizeTickerKey` applied to an arbitrary value: the
`typeof k !== 'string'` guard. -/
def normalizeTickerKeyVal (k : Option JsVal) : Option JStr :=
  match k with
  | some (.str s) => normalizeTickerKey s
  | _ => none

/-- `parseScore(val)` on a value (`market_sentiment_csv.js:111`): numbers are
returned unchanged; strings are trimmed, a trailing `%` divides by 100 and
clamps to [-1, 1], a bare value in `(1, 100]` or `[-100, -1)` is divided
by 100; anything else is `undefined` (`none`). -/
def parseScoreVal (val : JsVal) : Option JNum :=
  match val with
  | .num q => some (.fin q)
  | .str s0 =>
    let s1 := jsTrim s0
    let percent := s1.getLast? = some '%'
    let s2 := if percent then s1.dropLast else s1
    let n := jsStringToNumber s2
    if n.isNan then none
    else if percent then some (jsMax (.fin (-1)) (jsMin (.fin 1) (jsDiv100 n)))
    else if jsLt (.fin 1) n && jsLe n (.fin 100) then some (jsDiv100 n)
    else if jsLt n (.fin (-1)) && jsLe (.fin (-100)) n then some (jsDiv100 n)
    else some n
  | _ => none

/-- `parseScore` applied to a possibly-undefined property. -/
def parseScore (val : Option JsVal) : Option JNum :=
  match val with
  | none => none
  | some v => parseScoreVal v

/-- The score-to-label inference of `coerceSentimentShape`
(`market_sentiment_csv.js:165-171`). -/
def inferLabelFromScore (n : JNum) : JStr :=
  if jsLe n (.fin (-3/5)) then jstr "VeryBearish"
  else if jsLt n (.fin (-1/5)) then jstr "Bearish"
  else if jsLe n (.fin (1/5)) then jstr "Neutral"
  else if jsLt n (.fin (3/5)) then jstr "Bullish"
  else jstr "VeryBullish"

/-- `!labelNorm` fallback to inference: a label is inferred only when no
label normalized and the score is a non-NaN number. -/
def inferIfMissing (labelNorm : Option JStr) (scoreNum : Option JNum) : Option JStr :=
  match labelNorm with
  | some l => some l
  | none =>
    match scoreNum with
    | some n => if n.isNan then none else some (inferLabelFromScore n)
    | none => none

/-- The summary selection of `coerceSentimentShape`
(`market_sentiment_csv.js:132`): the first of `summary`, `reason`,
`explanation` that is a string, else `undefined` (later defaulted to `''`). -/
def coerceSummary (v : JsVal) : JStr :=
  match getProp v (jstr "summary") with
  | some (.str s) => s
  | _ =>
    match getProp v (jstr "reason") with
    | some (.str s) => s
    | _ =>
      match getProp v (jstr "explanation") with
      | some (.str s) => s
      | _ => []

/-- A coerced per-ticker entry. -/
structure TickerEntry where
  score : JNum
  explanation : JStr
deriving DecidableEq, Repr

/-- JS `a || b` on possibly-undefined values: the first operand when truthy,
else the second. -/
def jsPick (o alt : Option JsVal) : Option JsVal :=
  match o with
  | some v => if jsTruthy v then some v else alt
  | none => alt

/-- The explanation field selection shared by both ticker branches
(`typeof rawVal.explanation === 'string' ? rawVal.explanation : ''`). -/
def tickerExplanation (entry : JsVal) : JStr :=
  match getProp entry (jstr "explanation") with
  | some (.str e) => e
  | _ => []

/-- Body of the mapping-branch ticker loop
(`market_sentiment_csv.js:136-152`): what one `[rawKey, rawVal]` entry
contributes, if anything.  `null` values are kept with score 0; numeric and
string values go through `parseScore`; object values use their `score` and
`explanation` properties; other values are dropped. -/
def tickerMapStep (rawKey : JStr) (rawVal : JsVal) : Option (JStr × TickerEntry) :=
  match normalizeTickerKey rawKey with
  | none => none
  | some key =>
    match rawVal with
    | .null => some (key, ⟨.fin 0, []⟩)
    | .num q =>
      match parseScoreVal (.num q) with
      | some t => if t.isNan then none else some (key, ⟨t, []⟩)
      | none => none
    | .str s =>
      match parseScoreVal (.str s) with
      | some t => if t.isNan then none else some (key, ⟨t, []⟩)
      | none => none
    | .bool _ => none
    | v =>
      match parseScore (getProp v (jstr "score")) with
      | some t => if t.isNan then none else some (key, ⟨t, tickerExplanation v⟩)
      | none => none

/-- Body of the array-branch ticker loop
(`market_sentiment_csv.js:154-162`): key from
`entry.ticker || entry.symbol || entry.code` (JS `||` falls through falsy
values), score from `entry.score`. -/
def tickerArrStep (entry : JsVal) : Option (JStr × TickerEntry) :=
  if jsObject entry = false then none
  else
    match normalizeTickerKeyVal (jsPick (getProp entry (jstr "ticker"))
        (jsPick (getProp entry (jstr "symbol")) (getProp entry (jstr "code")))) with
    | none => none
    | some key =>
      match parseScore (getProp entry (jstr "score")) with
      | some t => if t.isNan then none else some (key, ⟨t, tickerExplanation entry⟩)
      | none => none

/-- Fold of the mapping-branch ticker loop over `Object.entries`. -/
def buildTickersFromMap (entries : List (JStr × JsVal)) : List (JStr × TickerEntry) :=
  entries.foldl
    (fun acc kv =>
      match tickerMapStep kv.1 kv.2 with
      | some (k, e) => jsObjInsert acc k e
      | none => acc) []

/-- Fold of the array-branch ticker loop. -/
def buildTickersFromArr (items : List JsVal) : List (JStr × TickerEntry) :=
  items.foldl
    (fun acc it =>
      match tickerArrStep it with
      | some (k, e) => jsObjInsert acc k e
      | none => acc) []

/-- The tickers coercion (`market_sentiment_csv.js:133-163`): a truthy
non-array object uses the mapping branch, an array the array branch,
anything else yields the empty mapping. -/
def coerceTickers (tv : Option JsVal) : List (JStr × TickerEntry) :=
  match tv with
  | some (.obj entries) => buildTickersFromMap entries
  | some (.arr items) => buildTickersFromArr items
  | _ => []

/-- The canonical sentiment record. -/
structure SentimentRecord where
  label : JStr
  score : JNum
  summary : JStr
  tickers : List (JStr × TickerEntry)
deriving DecidableEq, Repr

/-- `coerceSentimentShape(obj)` (`market_sentiment_csv.js:128-175`): `null`
unless the input is a truthy object and both a label (normalized or inferred
from a non-NaN score) and a non-NaN numeric score are resolved. -/
def coerceSentimentShape (v : JsVal) : Option SentimentRecord :=
  if jsObject v = false then none
  else
    let labelNorm := normalizeLabel (getProp v (jstr "label"))
    let scoreNum := parseScore (getProp v (jstr "score"))
    let tickers := coerceTickers (getProp v (jstr "tickers"))
    let label2 := inferIfMissing labelNorm scoreNum
    match label2, scoreNum with
    | some lab, some n =>
      if n.isNan then none else some ⟨lab, n, coerceSummary v, tickers⟩
    | _, _ => none

/-- `coerceSentimentShape` applied to the result of `safeParseJson`
(`coerce(null)` is `null`). -/
def coerceParsed (p : Option JsVal) : Option SentimentRecord :=
  match p with
  | none => none
  | some v => coerceSentimentShape v

/-! ### The sentiment oracle client (`scoreMarket`) -/

/-- The parsing stage of one `scoreMarket` attempt
(`market_sentiment_csv.js:194-207`): clean, parse, coerce; on a rejected
result, brace-match, repair, parse, coerce again. -/
def pipelineParse (raw : JStr) : Option SentimentRecord :=
  let cleaned := cleanJsonString raw
  match coerceParsed (safeParseJson cleaned) with
  | some r => some r
  | none =>
    let cleaned2 := (braceMatch cleaned).getD cleaned
    coerceParsed (safeParseJson (tryRepairs cleaned2))

/-- One oracle outcome per attempt: either the model's text reply, or a
thrown transport/API error with its observable fields
(`e?.error?.type`, `e?.message || String(e)`, `e?.status`,
`e?.response?.headers?.get?.("retry-after")`). -/
inductive Outcome where
  | reply (text : JStr)
  | err (errType : Option JStr) (message : JStr) (status : Option ℕ)
        (retryAfterHdr : Option JStr)

/-- `e?.error?.type || e?.message || String(e)` (`message` stands for the
already-resolved `e?.message || String(e)`). -/
def resolveMsg (errType : Option JStr) (message : JStr) : JStr :=
  match errType with
  | some t => if t = [] then message else t
  | none => message

/-- `haystack.includes(pat)`: substring test. -/
def hasSubstr (pat : JStr) : JStr → Bool
  | [] => pat.isPrefixOf []
  | c :: rest => pat.isPrefixOf (c :: rest) || hasSubstr pat rest

/-- The rate-limit classification
(`msg.includes("rate_limit") || e?.status === 429`). -/
def isRateLimitErr (errType : Option JStr) (message : JStr) (status : Option ℕ) : Bool :=
  hasSubstr (jstr "rate_limit") (resolveMsg errType message) || status = some 429

/-- The backoff delay:
`Number(retry-after) * 1000 || (2000 * (attempt + 1))` (absent header gives
`NaN`, hence the default). -/
def rlDelay (retryAfterHdr : Option JStr) (attempt : ℕ) : JNum :=
  let n :=
    match retryAfterHdr with
    | some h => jsMulPos (jsStringToNumber h) 1000
    | none => .nan
  if jsFalsyNum n then .fin (2000 * ((attempt : ℚ) + 1)) else n

/-- The `Error` sentinel record. -/
def errSentinel (summary : JStr) : SentimentRecord :=
  ⟨jstr "Error", .fin 0, summary, []⟩

/-- The parse-failure message
(`throw new Error("Model did not return valid JSON sentiment")`). -/
def parseFailMsg : JStr := jstr "Model did not return valid JSON sentiment"

/-- The retry-exhaustion summary. -/
def exhaustMsg : JStr := jstr "rate limit retries exhausted"

/-- Observable result of one `scoreMarket` call: the returned record, the
number of oracle requests issued, and the list of backoff sleeps. -/
structure SMOut where
  record : SentimentRecord
  calls : ℕ
  sleeps : List JNum
deriving DecidableEq, Repr

/-- `scoreMarket` from attempt `attempt` on (`market_sentiment_csv.js:182-224`),
with the oracle modelled as a map from attempt index to outcome: a reply is
cleaned/parsed/coerced; a failed parse throws, is caught, fails the
rate-limit test and returns the sentinel; a rate-limit-classified error
sleeps and retries; any other error returns the sentinel at once; falling
out of the loop returns the exhaustion sentinel. -/
def smRun (oracle : ℕ → Outcome) (attempt : ℕ) : SMOut :=
  if _h : attempt < 5 then
    match oracle attempt with
    | .reply t =>
      match pipelineParse t with
      | some r => ⟨r, 1, []⟩
      | none =>
        if isRateLimitErr none parseFailMsg none then
          let rest := smRun oracle (attempt + 1)
          ⟨rest.record, rest.calls + 1, rlDelay none attempt :: rest.sleeps⟩
        else ⟨errSentinel (resolveMsg none parseFailMsg), 1, []⟩
    | .err et m st hdr =>
      if isRateLimitErr et m st then
        let rest := smRun oracle (attempt + 1)
        ⟨rest.record, rest.calls + 1, rlDelay hdr attempt :: rest.sleeps⟩
      else ⟨errSentinel (resolveMsg et m), 1, []⟩
  else ⟨errSentinel exhaustMsg, 0, []⟩
  termination_by 5 - attempt
  decreasing_by all_goals omega

/-- A full `scoreMarket(text)` call starts at attempt 0. -/
def scoreMarket (oracle : ℕ → Outcome) : SMOut := smRun oracle 0

/-! ### Claims -/

/-- Helper: on a `.fin` score the inference chain is the rational if-chain. -/
theorem inferLabel_fin (s : ℚ) :
    inferLabelFromScore (.fin s) =
      (if s ≤ -3/5 then jstr "VeryBearish" else if s < -1/5 then jstr "Bearish"
       else if s ≤ 1/5 then jstr "Neutral" else if s < 3/5 then jstr "Bullish"
       else jstr "VeryBullish") := by
  simp [inferLabelFromScore, jsLe, jsLt]

/-- Helper: the full inference behaviour of `coerceSentimentShape` when the
label does not normalize and the score parses to a finite number. -/
theorem coerce_inferred (v : JsVal) (s : ℚ)
    (hl : normalizeLabel (getProp v (jstr "label")) = none)
    (hs : parseScore (getProp v (jstr "score")) = some (.fin s)) :
    ∃ r, coerceSentimentShape v = some r ∧ r.score = .fin s ∧
      ((s ≤ -3/5 → r.label = jstr "VeryBearish") ∧
       (-3/5 < s ∧ s < -1/5 → r.label = jstr "Bearish") ∧
       (-1/5 ≤ s ∧ s ≤ 1/5 → r.label = jstr "Neutral") ∧
       (1/5 < s ∧ s < 3/5 → r.label = jstr "Bullish") ∧
       (3/5 ≤ s → r.label = jstr "VeryBullish")) := by
  obtain ⟨fs, rfl⟩ : ∃ fs, v = .obj fs := by
    cases v <;> first | exact ⟨_, rfl⟩ | simp [getProp, parseScore] at hs
  refine ⟨⟨inferLabelFromScore (.fin s), .fin s, coerceSummary (.obj fs),
           coerceTickers (getProp (.obj fs) (jstr "tickers"))⟩, ?_, rfl, ?_⟩
  · simp [coerceSentimentShape, jsObject, hl, hs, inferIfMissing, JNum.isNan]
  · rw [inferLabel_fin]
    refine ⟨?_, ?_, ?_, ?_, ?_⟩
    · intro h; simp [if_pos h]
    · rintro ⟨h1, h2⟩
      rw [if_neg (by linarith), if_pos (by linarith)]
    · rintro ⟨h1, h2⟩
      rw [if_neg (by linarith), if_neg (by linarith), if_pos (by linarith)]
    · rintro ⟨h1, h2⟩
      rw [if_neg (by linarith), if_neg (by linarith), if_neg (by linarith), if_pos (by linarith)]
    · intro h
      rw [if_neg (by linarith), if_neg (by linarith), if_neg (by linarith), if_neg (by linarith)]

/-- C1 (corrected): when the label does not normalize and the score parses to
a finite number `s`, `coerceSentimentShape` accepts the object and infers the
label by the code's thresholds: `s ≤ −0.6` gives VeryBearish, `−0.6 < s <
−0.2` gives Bearish, `−0.2 ≤ s ≤ 0.2` gives Neutral (so exactly −0.2 is
Neutral, not Bearish as claimed), `0.2 < s < 0.6` gives Bullish, and
`s ≥ 0.6` gives VeryBullish. -/
theorem c1_threshold_inference (v : JsVal) (s : ℚ)
    (hl : normalizeLabel (getProp v (jstr "label")) = none)
    (hs : parseScore (getProp v (jstr "score")) = some (.fin s)) :
    ∃ r, coerceSentimentShape v = some r ∧ r.score = .fin s ∧
      ((s ≤ -3/5 → r.label = jstr "VeryBearish") ∧
       (-3/5 < s ∧ s < -1/5 → r.label = jstr "Bearish") ∧
       (-1/5 ≤ s ∧ s ≤ 1/5 → r.label = jstr "Neutral") ∧
       (1/5 < s ∧ s < 3/5 → r.label = jstr "Bullish") ∧
       (3/5 ≤ s → r.label = jstr "VeryBullish")) :=
  coerce_inferred v s hl hs

/-- C1 counterexample: on `{"score": -0.2}` the label does not normalize and
the score parses to exactly −0.2, yet the coerced label is Neutral, not the
Bearish required by the claim's interval `(−0.6, −0.2]`. -/
theorem c1_boundary_counterexample :
    normalizeLabel (getProp (JsVal.obj [(jstr "score", .num (-1/5))]) (jstr "label")) = none ∧
    parseScore (getProp (JsVal.obj [(jstr "score", .num (-1/5))]) (jstr "score"))
      = some (.fin (-1/5)) ∧
    (coerceSentimentShape (JsVal.obj [(jstr "score", .num (-1/5))])).map SentimentRecord.label
      = some (jstr "Neutral") ∧
    (coerceSentimentShape (JsVal.obj [(jstr "score", .num (-1/5))])).map SentimentRecord.label
      ≠ some (jstr "Bearish") := by
  refine ⟨rfl, by decide, by decide, by decide⟩

/-- Witness for `c1_threshold_inference` at `{"score": 0.7}`. -/
theorem c1_threshold_inference_witness :
    normalizeLabel (getProp (JsVal.obj [(jstr "score", .num (7/10))]) (jstr "label")) = none ∧
    parseScore (getProp (JsVal.obj [(jstr "score", .num (7/10))]) (jstr "score"))
      = some (.fin (7/10)) ∧
    (∃ r, coerceSentimentShape (JsVal.obj [(jstr "score", .num (7/10))]) = some r ∧
      r.score = .fin (7/10) ∧
      (((7:ℚ)/10 ≤ -3/5 → r.label = jstr "VeryBearish") ∧
       (-3/5 < (7:ℚ)/10 ∧ (7:ℚ)/10 < -1/5 → r.label = jstr "Bearish") ∧
       (-1/5 ≤ (7:ℚ)/10 ∧ (7:ℚ)/10 ≤ 1/5 → r.label = jstr "Neutral") ∧
       (1/5 < (7:ℚ)/10 ∧ (7:ℚ)/10 < 3/5 → r.label = jstr "Bullish") ∧
       ((3:ℚ)/5 ≤ 7/10 → r.label = jstr "VeryBullish"))) :=
  ⟨rfl, by decide, c1_threshold_inference _ (7/10) rfl (by decide)⟩

/-- C2 counterexample: a score given as the *number* 80 is returned
unchanged by `parseScore` (the percentage rescaling lives only in the string
branch), refuting the claim that `parseScore` of the number 80 is 0.8; the
number −50 likewise stays −50. -/
theorem c2_number_counterexample :
    parseScore (some (.num 80)) = some (.fin 80) ∧
    parseScore (some (.num 80)) ≠ some (.fin (4/5)) ∧
    parseScore (some (.num (-50))) = some (.fin (-50)) ∧
    parseScore (some (.num (-50))) ≠ some (.fin (-1/2)) := by
  refine ⟨rfl, by decide, rfl, by decide⟩

/-- C2 (corrected): `parseScore` returns a *number* input unchanged; the
percentage heuristics apply only to string input: a numeric string (not
ending in `%`) whose value `n` lies in `(1, 100]` or `[−100, −1)` yields
`n / 100`, and a string ending in `%` whose numeric part parses to `n`
yields `n / 100` clamped to `[−1, 1]`. -/
theorem c2_percentage_heuristics :
    (∀ q : ℚ, parseScore (some (.num q)) = some (.fin q)) ∧
    (∀ (s : JStr) (n : ℚ), ¬ (jsTrim s).getLast? = some '%' →
      jsStringToNumber (jsTrim s) = .fin n →
      ((1 < n ∧ n ≤ 100) ∨ (-100 ≤ n ∧ n < -1)) →
      parseScore (some (.str s)) = some (.fin (n / 100))) ∧
    (∀ (s : JStr) (n : ℚ), (jsTrim s).getLast? = some '%' →
      jsStringToNumber ((jsTrim s).dropLast) = .fin n →
      parseScore (some (.str s)) = some (.fin (max (-1) (min 1 (n / 100))))) := by
  refine ⟨fun q => rfl, ?_, ?_⟩
  · intro s n hp hn hcase
    simp only [parseScore, parseScoreVal]
    rw [if_neg hp, hn]
    rcases hcase with ⟨h1, h2⟩ | ⟨h1, h2⟩
    · simp [JNum.isNan, jsLt, jsLe, jsDiv100, h1, h2]
      exact fun h => absurd h hp
    · simp [JNum.isNan, jsLt, jsLe, jsDiv100, h1, h2, not_lt.2 (by linarith : n ≤ (1:ℚ)),
        not_le.2 (by linarith : n < 100)]
      exact fun h => absurd h hp
  · intro s n hp hn
    simp only [parseScore, parseScoreVal]
    rw [if_pos hp, hn]
    simp [JNum.isNan, jsDiv100, jsMin, jsMax]
    exact fun h => absurd hp h

/-- Witness for `c2_percentage_heuristics` at score 0.3, strings `"80"` and
`"75%"`. -/
theorem c2_percentage_heuristics_witness :
    parseScore (some (.num (3/10))) = some (.fin (3/10)) ∧
    parseScore (some (.str (jstr "80"))) = some (.fin (80 / 100)) ∧
    parseScore (some (.str (jstr "75%"))) = some (.fin (max (-1) (min 1 (75 / 100)))) :=
  ⟨c2_percentage_heuristics.1 _,
   c2_percentage_heuristics.2.1 _ 80 (by decide) (by decide) (by norm_num),
   c2_percentage_heuristics.2.2 _ 75 (by decide) (by decide)⟩

/-- C3 (confirmed): the single hard validity gate.  A record is produced
only when the score parses to a non-NaN number and the label is either
directly normalized or inferred from that score; an object with no
normalizable label and an unparseable score coerces to `null`, and any
non-object (or `null`) input coerces to `null`. -/
theorem c3_validity_gate :
    (∀ v r, coerceSentimentShape v = some r →
       ∃ n, parseScore (getProp v (jstr "score")) = some n ∧ n.isNan = false ∧ r.score = n ∧
         (normalizeLabel (getProp v (jstr "label")) = some r.label ∨
          (normalizeLabel (getProp v (jstr "label")) = none ∧ r.label = inferLabelFromScore n))) ∧
    (∀ v, normalizeLabel (getProp v (jstr "label")) = none →
       parseScore (getProp v (jstr "score")) = none → coerceSentimentShape v = none) ∧
    (∀ v, jsObject v = false → coerceSentimentShape v = none) := by
  refine ⟨?_, ?_, ?_⟩
  · intro v r h
    by_cases hobj : jsObject v = false
    · simp [coerceSentimentShape, hobj] at h
    · rcases hln : normalizeLabel (getProp v (jstr "label")) with _ | lab <;>
        rcases hsn : parseScore (getProp v (jstr "score")) with _ | n <;>
        simp [coerceSentimentShape, hobj, hln, hsn, inferIfMissing] at h
      · rcases hnan : n.isNan with _ | _ <;> simp [hnan] at h
        exact ⟨n, rfl, hnan, by rw [← h], Or.inr ⟨rfl, by rw [← h]⟩⟩
      · obtain ⟨hnan, hr⟩ := h
        exact ⟨n, rfl, hnan, by rw [← hr], Or.inl (by rw [← hr])⟩
  · intro v hl hs
    by_cases hobj : jsObject v = false
    · simp [coerceSentimentShape, hobj]
    · simp [coerceSentimentShape, hobj, hl, hs, inferIfMissing]
  · intro v hobj
    simp [coerceSentimentShape, hobj]

/-- Witness for `c3_validity_gate`: a coerced record from
`{"label":"bullish","score":0.5}`, the rejected
`{"label":"garbage","score":"abc"}`, and the rejected string input. -/
theorem c3_validity_gate_witness :
    (∃ n, parseScore (getProp (JsVal.obj [(jstr "label", .str (jstr "bullish")),
        (jstr "score", .num (1/2))]) (jstr "score")) = some n ∧ n.isNan = false ∧
        (⟨jstr "Bullish", .fin (1/2), [], []⟩ : SentimentRecord).score = n ∧
        (normalizeLabel (getProp (JsVal.obj [(jstr "label", .str (jstr "bullish")),
            (jstr "score", .num (1/2))]) (jstr "label"))
          = some (⟨jstr "Bullish", .fin (1/2), [], []⟩ : SentimentRecord).label ∨
         (normalizeLabel (getProp (JsVal.obj [(jstr "label", .str (jstr "bullish")),
            (jstr "score", .num (1/2))]) (jstr "label")) = none ∧
          (⟨jstr "Bullish", .fin (1/2), [], []⟩ : SentimentRecord).label
            = inferLabelFromScore n))) ∧
    coerceSentimentShape (JsVal.obj [(jstr "label", .str (jstr "garbage")),
      (jstr "score", .str (jstr "abc"))]) = none ∧
    coerceSentimentShape (.str (jstr "text")) = none :=
  ⟨c3_validity_gate.1 (JsVal.obj [(jstr "label", .str (jstr "bullish")),
      (jstr "score", .num (1/2))]) ⟨jstr "Bullish", .fin (1/2), [], []⟩ (by decide),
   c3_validity_gate.2.1 _ rfl rfl,
   c3_validity_gate.2.2 _ rfl⟩

/-- C8 counterexample: with `summary` the empty string and `reason` the
non-empty `"why"`, the coerced summary is the empty string, not `"why"` —
the selection takes the first string-typed field, not the first non-empty
one. -/
theorem c8_empty_summary_counterexample :
    getProp (JsVal.obj [(jstr "label", .str (jstr "bullish")), (jstr "score", .num (1/2)),
        (jstr "summary", .str []), (jstr "reason", .str (jstr "why"))]) (jstr "summary")
      = some (.str []) ∧
    getProp (JsVal.obj [(jstr "label", .str (jstr "bullish")), (jstr "score", .num (1/2)),
        (jstr "summary", .str []), (jstr "reason", .str (jstr "why"))]) (jstr "reason")
      = some (.str (jstr "why")) ∧
    (coerceSentimentShape (JsVal.obj [(jstr "label", .str (jstr "bullish")),
        (jstr "score", .num (1/2)), (jstr "summary", .str []),
        (jstr "reason", .str (jstr "why"))])).map SentimentRecord.summary = some [] ∧
    (coerceSentimentShape (JsVal.obj [(jstr "label", .str (jstr "bullish")),
        (jstr "score", .num (1/2)), (jstr "summary", .str []),
        (jstr "reason", .str (jstr "why"))])).map SentimentRecord.summary
      ≠ some (jstr "why") := by
  refine ⟨rfl, rfl, by decide, by decide⟩

/-- C8 (corrected): the coerced summary is the first of the `summary`,
`reason`, `explanation` fields that is *string-typed* — regardless of
emptiness — defaulting to the empty string; in particular an empty-string
`summary` field wins over a non-empty `reason`. -/
theorem c8_summary_first_string (v : JsVal) (r : SentimentRecord)
    (h : coerceSentimentShape v = some r) :
    r.summary =
      (match getProp v (jstr "summary") with
       | some (.str s) => s
       | _ =>
         match getProp v (jstr "reason") with
         | some (.str s) => s
         | _ =>
           match getProp v (jstr "explanation") with
           | some (.str s) => s
           | _ => []) := by
  have hsum : r.summary = coerceSummary v := by
    by_cases hobj : jsObject v = false
    · simp [coerceSentimentShape, hobj] at h
    · rcases hln : normalizeLabel (getProp v (jstr "label")) with _ | lab <;>
        rcases hsn : parseScore (getProp v (jstr "score")) with _ | n <;>
        simp [coerceSentimentShape, hobj, hln, hsn, inferIfMissing] at h
      · rcases hnan : n.isNan with _ | _ <;> simp [hnan] at h
        rw [← h]
      · obtain ⟨_, hr⟩ := h
        rw [← hr]
  exact hsum

/-- Witness for `c8_summary_first_string` at an object whose only summary
candidate is `reason`. -/
theorem c8_summary_first_string_witness :
    (⟨jstr "Bullish", .fin (1/2), jstr "why", []⟩ : SentimentRecord).summary =
      (match getProp (JsVal.obj [(jstr "label", .str (jstr "bullish")),
          (jstr "score", .num (1/2)), (jstr "reason", .str (jstr "why"))]) (jstr "summary") with
       | some (.str s) => s
       | _ =>
         match getProp (JsVal.obj [(jstr "label", .str (jstr "bullish")),
             (jstr "score", .num (1/2)), (jstr "reason", .str (jstr "why"))]) (jstr "reason") with
         | some (.str s) => s
         | _ =>
           match getProp (JsVal.obj [(jstr "label", .str (jstr "bullish")),
               (jstr "score", .num (1/2)), (jstr "reason", .str (jstr "why"))])
               (jstr "explanation") with
           | some (.str s) => s
           | _ => []) :=
  c8_summary_first_string
    (JsVal.obj [(jstr "label", .str (jstr "bullish")), (jstr "score", .num (1/2)),
      (jstr "reason", .str (jstr "why"))])
    ⟨jstr "Bullish", .fin (1/2), jstr "why", []⟩ (by decide)

/-- C10 (confirmed): an empty or whitespace-only score string trims to the
empty string, `Number('')` is 0, so `parseScore` returns 0; with no
recognizable label the record is accepted with score 0 and inferred label
Neutral. -/
theorem c10_empty_score_string (v : JsVal) (s : JStr)
    (hscore : getProp v (jstr "score") = some (.str s))
    (hws : s.all isJsWsChar = true)
    (hl : normalizeLabel (getProp v (jstr "label")) = none) :
    parseScore (getProp v (jstr "score")) = some (.fin 0) ∧
    ∃ r, coerceSentimentShape v = some r ∧ r.score = .fin 0 ∧ r.label = jstr "Neutral" := by
  have htrim : jsTrim s = [] := by
    have : s.dropWhile isJsWsChar = [] := by
      rw [List.dropWhile_eq_nil_iff]
      intro x hx
      exact List.all_eq_true.1 hws x hx
    simp [jsTrim, this, dropTrailingWs]
  have hps : parseScore (getProp v (jstr "score")) = some (.fin 0) := by
    rw [hscore]
    simp only [parseScore, parseScoreVal, htrim]
    decide
  refine ⟨hps, ?_⟩
  obtain ⟨r, hr, hrs, hlabel⟩ := coerce_inferred v 0 hl hps
  exact ⟨r, hr, hrs, hlabel.2.2.1 (by norm_num)⟩

/-- Witness for `c10_empty_score_string` at `{"score": "  "}`. -/
theorem c10_empty_score_string_witness :
    parseScore (getProp (JsVal.obj [(jstr "score", .str (jstr "  "))]) (jstr "score"))
      = some (.fin 0) ∧
    ∃ r, coerceSentimentShape (JsVal.obj [(jstr "score", .str (jstr "  "))]) = some r ∧
      r.score = .fin 0 ∧ r.label = jstr "Neutral" :=
  c10_empty_score_string (JsVal.obj [(jstr "score", .str (jstr "  "))]) (jstr "  ")
    rfl (by decide) rfl

/-- Classification of an outcome as rate-limited (reply outcomes never
are). -/
def isRLOutcome : Outcome → Bool
  | .err et m st _ => isRateLimitErr et m st
  | .reply _ => false

/-- Helper: under all-rate-limited outcomes the loop falls out with the
exhaustion sentinel. -/
theorem smRun_exhaust (oracle : ℕ → Outcome)
    (h : ∀ a, a < 5 → isRLOutcome (oracle a) = true) :
    ∀ k a, 5 - a = k → (smRun oracle a).record = errSentinel exhaustMsg := by
  intro k
  induction k with
  | zero =>
    intro a ha
    rw [smRun]
    simp [show ¬ a < 5 by omega]
  | succ n ih =>
    intro a ha
    have ha5 : a < 5 := by omega
    have := h a ha5
    rw [smRun]
    rcases hoa : oracle a with t | ⟨et, m, st, hdr⟩
    · rw [hoa] at this; simp [isRLOutcome] at this
    · rw [hoa] at this
      simp only [isRLOutcome] at this
      simp [ha5, hoa, this]
      exact ih (a + 1) (by omega)

/-- Helper: with all-rate-limited outcomes and no retry-after header, the
whole observable behaviour of the loop — the exhaustion sentinel, the count
of requests, and the default back-off sleeps `2000·(attempt+1)`. -/
theorem smRun_exhaust_full (oracle : ℕ → Outcome)
    (h : ∀ a, a < 5 → ∃ et m st, oracle a = .err et m st none ∧ isRateLimitErr et m st = true) :
    ∀ k a, 5 - a = k →
      smRun oracle a = ⟨errSentinel exhaustMsg, k,
        (List.range k).map (fun i => .fin (2000 * (((a + i : ℕ) : ℚ) + 1)))⟩ := by
  intro k
  induction k with
  | zero =>
    intro a ha
    rw [smRun]
    simp [show ¬ a < 5 by omega]
  | succ n ih =>
    intro a ha
    have ha5 : a < 5 := by omega
    obtain ⟨et, m, st, hoa, hrl⟩ := h a ha5
    rw [smRun]
    simp only [ha5, dite_true, hoa, hrl, if_true, dif_pos]
    rw [ih (a + 1) (by omega)]
    have hdelay : rlDelay none a = .fin (2000 * ((a : ℚ) + 1)) := by
      simp [rlDelay, jsFalsyNum]
    rw [hdelay, List.range_succ_eq_map]
    simp only [List.map_cons, List.map_map, SMOut.mk.injEq]
    refine ⟨trivial, trivial, congrArg₂ List.cons rfl ?_⟩
    apply List.map_congr_left
    intro i _
    simp only [Function.comp_apply]
    congr 1
    push_cast
    ring

/-- C4 (confirmed): every failing oracle outcome — malformed output, a
non-rate-limit error, or rate-limit exhaustion — makes `scoreMarket` return
a record (never throw) with label `"Error"`, score 0, summary the error
detail, and empty tickers. -/
theorem c4_error_sentinel :
    (∀ (oracle : ℕ → Outcome) (a : ℕ) (t : JStr), a < 5 → oracle a = .reply t →
      pipelineParse t = none →
      (smRun oracle a).record.label = jstr "Error" ∧
      (smRun oracle a).record.score = .fin 0 ∧
      (smRun oracle a).record.summary = parseFailMsg ∧
      (smRun oracle a).record.tickers = []) ∧
    (∀ (oracle : ℕ → Outcome) (a : ℕ) et m st hdr, a < 5 → oracle a = .err et m st hdr →
      isRateLimitErr et m st = false →
      (smRun oracle a).record.label = jstr "Error" ∧
      (smRun oracle a).record.score = .fin 0 ∧
      (smRun oracle a).record.summary = resolveMsg et m ∧
      (smRun oracle a).record.tickers = []) ∧
    (∀ oracle : ℕ → Outcome, (∀ a, a < 5 → isRLOutcome (oracle a) = true) →
      (smRun oracle 0).record.label = jstr "Error" ∧
      (smRun oracle 0).record.score = .fin 0 ∧
      (smRun oracle 0).record.summary = exhaustMsg ∧
      (smRun oracle 0).record.tickers = []) := by
  refine ⟨?_, ?_, ?_⟩
  · intro oracle a t ha hoa hp
    rw [smRun]
    simp [ha, hoa, hp, show isRateLimitErr none parseFailMsg none = false by decide,
      errSentinel, resolveMsg]
  · intro oracle a et m st hdr ha hoa hrl
    rw [smRun]
    simp [ha, hoa, hrl, errSentinel]
  · intro oracle h
    rw [smRun_exhaust oracle h 5 0 rfl]
    exact ⟨rfl, rfl, rfl, rfl⟩

/-- Witness for `c4_error_sentinel`: a malformed reply, a non-rate-limit
error, and an always-rate-limited oracle. -/
theorem c4_error_sentinel_witness :
    ((smRun (fun _ => .reply (jstr "garbage")) 0).record.summary = parseFailMsg) ∧
    ((smRun (fun _ => .err none (jstr "boom") none none) 0).record.summary
      = resolveMsg none (jstr "boom")) ∧
    ((smRun (fun _ => .err none (jstr "a rate_limit was hit") none none) 0).record.summary
      = exhaustMsg) :=
  ⟨(c4_error_sentinel.1 _ 0 (jstr "garbage") (by omega) rfl (by decide)).2.2.1,
   (c4_error_sentinel.2.1 _ 0 none (jstr "boom") none none (by omega) rfl (by decide)).2.2.1,
   (c4_error_sentinel.2.2 _ (fun a _ => by decide)).2.2.1⟩

/-- C5 (confirmed): when the oracle raises a rate-limit-classified error on
every attempt (with no server-suggested retry interval), `scoreMarket` makes
exactly 5 requests, sleeps the default `2000 ms × (attempt+1)` back-offs,
and returns the `Error` sentinel with summary "rate limit retries
exhausted"; the loop is bounded. -/
theorem c5_retry_bound (oracle : ℕ → Outcome)
    (h : ∀ a, a < 5 → ∃ et m st, oracle a = .err et m st none ∧ isRateLimitErr et m st = true) :
    smRun oracle 0 = ⟨errSentinel exhaustMsg, 5,
      [.fin 2000, .fin 4000, .fin 6000, .fin 8000, .fin 10000]⟩ := by
  rw [smRun_exhaust_full oracle h 5 0 rfl]
  decide

/-- Witness for `c5_retry_bound` with a permanently rate-limited oracle. -/
theorem c5_retry_bound_witness :
    smRun (fun _ => .err (some (jstr "rate_limit_error")) (jstr "slow down") (some 429) none) 0
      = ⟨errSentinel exhaustMsg, 5, [.fin 2000, .fin 4000, .fin 6000, .fin 8000, .fin 10000]⟩ :=
  c5_retry_bound _ (fun a _ => ⟨some (jstr "rate_limit_error"), jstr "slow down", some 429,
    rfl, by decide⟩)

/-- C6 (confirmed): a malformed reply is not retried — the same attempt
returns the `Error` sentinel with the parse-failure message, exactly one
oracle request is made, and no back-off sleep happens; the failure is a
returned record, never an exception. -/
theorem c6_malformed_not_retried (oracle : ℕ → Outcome) (a : ℕ) (t : JStr)
    (ha : a < 5) (hoa : oracle a = .reply t) (hp : pipelineParse t = none) :
    smRun oracle a = ⟨errSentinel parseFailMsg, 1, []⟩ := by
  rw [smRun]
  simp [ha, hoa, hp, show isRateLimitErr none parseFailMsg none = false by decide, resolveMsg]

/-- Witness for `c6_malformed_not_retried` on the non-JSON reply `"junk"`. -/
theorem c6_malformed_not_retried_witness :
    smRun (fun _ => .reply (jstr "junk")) 2 = ⟨errSentinel parseFailMsg, 1, []⟩ :=
  c6_malformed_not_retried _ 2 (jstr "junk") (by omega) rfl (by decide)
/-- The symbol-shape property of output ticker keys: non-empty, at most
6 characters, all uppercase alphanumerics. -/
def tickerShape (k : JStr) : Bool :=
  decide (k ≠ []) && decide (k.length ≤ 6) && k.all isUpperAlnum

/-- Key membership in an association-list object. -/
def hasKey {α : Type} : List (JStr × α) → JStr → Bool
  | [], _ => false
  | p :: rest, k => p.1 = k || hasKey rest k

/-- The score the ticker loop would read from a raw ticker value: numbers
and strings go through `parseScore` directly, objects and arrays through
their `score` property, booleans have none (`null` is special-cased by the
loop and never reaches `parseScore`). -/
def tickerValScore : JsVal → Option JNum
  | .num q => parseScoreVal (.num q)
  | .str s => parseScoreVal (.str s)
  | .bool _ => none
  | .null => none
  | v => parseScore (getProp v (jstr "score"))

/-- Helper: a normalized ticker key has the symbol shape. -/
theorem normalizeTickerKey_shape {s k : JStr} (h : normalizeTickerKey s = some k) :
    tickerShape k = true := by
  simp only [normalizeTickerKey] at h
  split at h
  · exact absurd h (by simp)
  · rename_i hcond
    push_neg at hcond
    obtain ⟨h1, h2, h3⟩ := hcond
    obtain rfl : (jsTrim s).map Char.toUpper = k := Option.some.inj h
    simp only [tickerShape, Bool.and_eq_true, decide_eq_true_eq]
    refine ⟨⟨h1, by omega⟩, ?_⟩
    rw [List.all_eq_true]
    intro c hc
    by_contra hcf
    exact absurd (List.any_eq_true.2 ⟨c, hc, by simp [Bool.not_eq_true] at hcf ⊢; exact hcf⟩) h3

/-- Helper: members of `jsObjInsert fs k v` have key `k` or come from `fs`. -/
theorem mem_jsObjInsert {α : Type} {fs : List (JStr × α)} {k : JStr} {v : α} :
    ∀ p ∈ jsObjInsert fs k v, p.1 = k ∨ p ∈ fs := by
  induction fs with
  | nil =>
    intro p hp
    simp [jsObjInsert] at hp
    simp [hp]
  | cons q rest ih =>
    obtain ⟨k', v'⟩ := q
    intro p hp
    simp only [jsObjInsert] at hp
    by_cases hk : k' = k
    · rw [if_pos hk] at hp
      rcases List.mem_cons.1 hp with h | h
      · subst h; exact Or.inl hk
      · exact Or.inr (List.mem_cons_of_mem _ h)
    · rw [if_neg hk] at hp
      rcases List.mem_cons.1 hp with h | h
      · subst h; exact Or.inr (List.mem_cons_self _ _)
      · rcases ih p h with hx | hx
        · exact Or.inl hx
        · exact Or.inr (List.mem_cons_of_mem _ hx)

/-- Helper: keys after an insert. -/
theorem hasKey_jsObjInsert {α : Type} (fs : List (JStr × α)) (k k' : JStr) (v : α) :
    hasKey (jsObjInsert fs k v) k' = true ↔ k = k' ∨ hasKey fs k' = true := by
  induction fs with
  | nil => simp [jsObjInsert, hasKey]
  | cons q rest ih =>
    obtain ⟨k'', v''⟩ := q
    by_cases hk : k'' = k
    · subst hk
      simp [jsObjInsert, hasKey]
    · simp only [jsObjInsert, if_neg hk]
      simp [hasKey] at ih ⊢
      tauto

/-- Helper: a surviving mapping-branch entry's key is its normalized raw
key. -/
theorem tickerMapStep_key {k : JStr} {v : JsVal} {kk : JStr} {e : TickerEntry}
    (h : tickerMapStep k v = some (kk, e)) : normalizeTickerKey k = some kk := by
  unfold tickerMapStep at h
  rcases hn : normalizeTickerKey k with _ | key <;> rw [hn] at h
  · exact absurd h (by simp)
  · cases v with
    | null => simp at h; rw [h.1]
    | bool b => simp at h
    | num q =>
      simp only [] at h
      rcases hp : parseScoreVal (.num q) with _ | t <;> rw [hp] at h
      · simp at h
      · rcases hnan : t.isNan with _ | _ <;> simp [hnan] at h
        rw [h.1]
    | str s =>
      simp only [] at h
      rcases hp : parseScoreVal (.str s) with _ | t <;> rw [hp] at h
      · simp at h
      · rcases hnan : t.isNan with _ | _ <;> simp [hnan] at h
        rw [h.1]
    | arr items =>
      simp only [] at h
      rcases hp : parseScore (getProp (.arr items) (jstr "score")) with _ | t <;> rw [hp] at h
      · simp at h
      · rcases hnan : t.isNan with _ | _ <;> simp [hnan] at h
        rw [h.1]
    | obj fields =>
      simp only [] at h
      rcases hp : parseScore (getProp (.obj fields) (jstr "score")) with _ | t <;> rw [hp] at h
      · simp at h
      · rcases hnan : t.isNan with _ | _ <;> simp [hnan] at h
        rw [h.1]

/-- Helper: a key is in the mapping-branch fold exactly when it was already
in the accumulator or some entry contributes it. -/
theorem hasKey_foldl_tickers (entries : List (JStr × JsVal)) (k' : JStr) :
    ∀ acc, hasKey (entries.foldl (fun acc kv =>
        match tickerMapStep kv.1 kv.2 with
        | some (k, e) => jsObjInsert acc k e
        | none => acc) acc) k' = true ↔
      hasKey acc k' = true ∨ ∃ p ∈ entries, ∃ e, tickerMapStep p.1 p.2 = some (k', e) := by
  induction entries with
  | nil =>
    intro acc
    simp only [List.foldl_nil, List.not_mem_nil, false_and, exists_false, or_false]
  | cons q rest ih =>
    intro acc
    simp only [List.foldl_cons]
    rcases hq : tickerMapStep q.1 q.2 with _ | ⟨kk, e⟩
    · simp only [hq]
      rw [ih]
      simp only [List.mem_cons]
      constructor
      · rintro (ha | ⟨p, hp, e', he⟩)
        · exact Or.inl ha
        · exact Or.inr ⟨p, Or.inr hp, e', he⟩
      · rintro (ha | ⟨p, (rfl | hp), e', he⟩)
        · exact Or.inl ha
        · rw [hq] at he; exact absurd he (by simp)
        · exact Or.inr ⟨p, hp, e', he⟩
    · simp only [hq]
      rw [ih]
      rw [hasKey_jsObjInsert]
      simp only [List.mem_cons]
      constructor
      · rintro ((rfl | ha) | ⟨p, hp, e', he⟩)
        · exact Or.inr ⟨q, Or.inl rfl, e, hq⟩
        · exact Or.inl ha
        · exact Or.inr ⟨p, Or.inr hp, e', he⟩
      · rintro (ha | ⟨p, (rfl | hp), e', he⟩)
        · exact Or.inl (Or.inr ha)
        · rw [hq] at he
          obtain ⟨h1, _⟩ := Prod.mk.injEq .. ▸ Option.some.inj he
          exact Or.inl (Or.inl h1)
        · exact Or.inr ⟨p, hp, e', he⟩

/-- Helper: a surviving array-branch entry's key is some normalized
string. -/
theorem tickerArrStep_key {v : JsVal} {kk : JStr} {e : TickerEntry}
    (h : tickerArrStep v = some (kk, e)) : ∃ s, normalizeTickerKey s = some kk := by
  unfold tickerArrStep at h
  split at h
  · exact absurd h (by simp)
  · rcases hn : normalizeTickerKeyVal (jsPick (getProp v (jstr "ticker"))
        (jsPick (getProp v (jstr "symbol")) (getProp v (jstr "code")))) with _ | key <;>
      rw [hn] at h
    · exact absurd h (by simp)
    · rcases hp : parseScore (getProp v (jstr "score")) with _ | t <;> rw [hp] at h
      · exact absurd h (by simp)
      · rcases hnan : t.isNan with _ | _ <;> simp [hnan] at h
        unfold normalizeTickerKeyVal at hn
        split at hn
        · rename_i s heq
          exact ⟨s, h.1 ▸ hn⟩
        · exact absurd hn (by simp)

/-- Helper: the mapping-branch fold preserves key shape. -/
theorem shape_foldl_map (entries : List (JStr × JsVal)) :
    ∀ acc, (∀ p ∈ acc, tickerShape p.1 = true) →
      ∀ p ∈ entries.foldl (fun acc kv =>
          match tickerMapStep kv.1 kv.2 with
          | some (k, e) => jsObjInsert acc k e
          | none => acc) acc, tickerShape p.1 = true := by
  induction entries with
  | nil =>
    intro acc hacc
    simp only [List.foldl_nil]
    exact hacc
  | cons q rest ih =>
    intro acc hacc
    simp only [List.foldl_cons]
    rcases hq : tickerMapStep q.1 q.2 with _ | ⟨kk, e⟩ <;> simp only [hq]
    · exact ih acc hacc
    · refine ih _ ?_
      intro p hp
      rcases mem_jsObjInsert p hp with h | h
      · rw [h]
        exact normalizeTickerKey_shape (tickerMapStep_key hq)
      · exact hacc p h

/-- Helper: the array-branch fold preserves key shape. -/
theorem shape_foldl_arr (items : List JsVal) :
    ∀ acc, (∀ p ∈ acc, tickerShape p.1 = true) →
      ∀ p ∈ items.foldl (fun acc it =>
          match tickerArrStep it with
          | some (k, e) => jsObjInsert acc k e
          | none => acc) acc, tickerShape p.1 = true := by
  induction items with
  | nil =>
    intro acc hacc
    simp only [List.foldl_nil]
    exact hacc
  | cons q rest ih =>
    intro acc hacc
    simp only [List.foldl_cons]
    rcases hq : tickerArrStep q with _ | ⟨kk, e⟩ <;> simp only [hq]
    · exact ih acc hacc
    · refine ih _ ?_
      intro p hp
      rcases mem_jsObjInsert p hp with h | h
      · rw [h]
        obtain ⟨s, hs⟩ := tickerArrStep_key hq
        exact normalizeTickerKey_shape hs
      · exact hacc p h

/-- Helper: the tickers of a coerced record are the coerced tickers of the
`tickers` property. -/
theorem coerce_tickers_eq (v : JsVal) (r : SentimentRecord)
    (h : coerceSentimentShape v = some r) :
    r.tickers = coerceTickers (getProp v (jstr "tickers")) := by
  by_cases hobj : jsObject v = false
  · simp [coerceSentimentShape, hobj] at h
  · rcases hln : normalizeLabel (getProp v (jstr "label")) with _ | lab <;>
      rcases hsn : parseScore (getProp v (jstr "score")) with _ | n <;>
      simp [coerceSentimentShape, hobj, hln, hsn, inferIfMissing] at h
    · rcases hnan : n.isNan with _ | _ <;> simp [hnan] at h
      rw [← h]
    · obtain ⟨_, hr⟩ := h
      rw [← hr]

/-- C7 (corrected): every key of the coerced tickers mapping is an
upper-cased 1–6 character alphanumeric symbol, and a key is present exactly
when some input entry contributes it; an entry whose key fails the shape
filter contributes nothing, and an entry with a *non-null* value lacking a
parseable score contributes nothing — but a `null`-valued entry, despite
having no parseable score, is *kept* with score 0 and empty explanation
(refuting the unqualified "dropped" of the claim). -/
theorem c7_ticker_filtering :
    (∀ v r, coerceSentimentShape v = some r → ∀ p ∈ r.tickers, tickerShape p.1 = true) ∧
    (∀ v r entries k', coerceSentimentShape v = some r →
       getProp v (jstr "tickers") = some (.obj entries) →
       (hasKey r.tickers k' = true ↔ ∃ p ∈ entries, ∃ e, tickerMapStep p.1 p.2 = some (k', e))) ∧
    (∀ k key, normalizeTickerKey k = some key →
       tickerMapStep k .null = some (key, ⟨.fin 0, []⟩)) ∧
    (∀ k v', normalizeTickerKey k = none → tickerMapStep k v' = none) ∧
    (∀ k v', ¬ v' = .null → tickerValScore v' = none → tickerMapStep k v' = none) := by
  refine ⟨?_, ?_, ?_, ?_, ?_⟩
  · intro v r h p hp
    rw [coerce_tickers_eq v r h] at hp
    rcases htv : getProp v (jstr "tickers") with _ | tv <;> rw [htv] at hp
    · simp [coerceTickers] at hp
    · cases tv <;>
        first
        | exact shape_foldl_map _ [] (fun p hp => by simp at hp) p hp
        | exact shape_foldl_arr _ [] (fun p hp => by simp at hp) p hp
        | simp [coerceTickers] at hp
  · intro v r entries k' h htv
    rw [coerce_tickers_eq v r h, htv]
    have hfold := hasKey_foldl_tickers entries k' []
    simp only [show (hasKey ([] : List (JStr × TickerEntry)) k') = false from rfl,
      Bool.false_eq_true, false_or] at hfold
    exact hfold
  · intro k key h
    simp [tickerMapStep, h]
  · intro k v' h
    simp [tickerMapStep, h]
  · intro k v' hne hscore
    unfold tickerMapStep
    rcases hn : normalizeTickerKey k with _ | key
    · rfl
    · cases v' with
      | null => exact absurd rfl hne
      | bool b => rfl
      | num q => simp only [tickerValScore] at hscore; simp [hscore]
      | str s => simp only [tickerValScore] at hscore; simp [hscore]
      | arr items => simp only [tickerValScore] at hscore; simp [hscore]
      | obj fields => simp only [tickerValScore] at hscore; simp [hscore]

/-- C7 counterexample: in
`{"label":"bullish","score":0,"tickers":{"AAPL":null}}` the ticker value
`null` has no parseable score, yet `AAPL` appears in the coerced tickers
with score 0 — the claim's "absent from the output" fails for null
values. -/
theorem c7_null_ticker_counterexample :
    parseScore (some JsVal.null) = none ∧
    tickerValScore JsVal.null = none ∧
    (coerceSentimentShape (JsVal.obj [(jstr "label", .str (jstr "bullish")),
        (jstr "score", .num 0), (jstr "tickers", .obj [(jstr "AAPL", .null)])])).map
      (fun r => r.tickers) = some [(jstr "AAPL", ⟨.fin 0, []⟩)] ∧
    (coerceSentimentShape (JsVal.obj [(jstr "label", .str (jstr "bullish")),
        (jstr "score", .num 0), (jstr "tickers", .obj [(jstr "AAPL", .null)])])).map
      (fun r => hasKey r.tickers (jstr "AAPL")) = some true := by
  refine ⟨rfl, rfl, by decide, by decide⟩

/-- Witness for `c7_ticker_filtering` on a concrete record with one kept and
one dropped entry. -/
theorem c7_ticker_filtering_witness :
    (∀ p ∈ (⟨jstr "Bullish", .fin 0, [],
        [(jstr "MSFT", ⟨.fin (1/4), []⟩)]⟩ : SentimentRecord).tickers,
      tickerShape p.1 = true) ∧
    (hasKey (⟨jstr "Bullish", .fin 0, [],
        [(jstr "MSFT", ⟨.fin (1/4), []⟩)]⟩ : SentimentRecord).tickers (jstr "GOOG") = true ↔
      ∃ p ∈ [(jstr "msft", JsVal.num (1/4)), (jstr "x-y", JsVal.num 1)],
        ∃ e, tickerMapStep p.1 p.2 = some (jstr "GOOG", e)) ∧
    tickerMapStep (jstr "ibm") .null = some (jstr "IBM", ⟨.fin 0, []⟩) ∧
    tickerMapStep (jstr "x-y") (.num 1) = none ∧
    tickerMapStep (jstr "tsla") (.str (jstr "zz")) = none :=
  ⟨c7_ticker_filtering.1
      (JsVal.obj [(jstr "label", .str (jstr "bullish")), (jstr "score", .num 0),
        (jstr "tickers", .obj [(jstr "msft", .num (1/4)), (jstr "x-y", .num 1)])])
      ⟨jstr "Bullish", .fin 0, [], [(jstr "MSFT", ⟨.fin (1/4), []⟩)]⟩ (by decide),
   c7_ticker_filtering.2.1
      (JsVal.obj [(jstr "label", .str (jstr "bullish")), (jstr "score", .num 0),
        (jstr "tickers", .obj [(jstr "msft", .num (1/4)), (jstr "x-y", .num 1)])])
      ⟨jstr "Bullish", .fin 0, [], [(jstr "MSFT", ⟨.fin (1/4), []⟩)]⟩
      [(jstr "msft", JsVal.num (1/4)), (jstr "x-y", JsVal.num 1)] (jstr "GOOG")
      (by decide) rfl,
   c7_ticker_filtering.2.2.1 (jstr "ibm") (jstr "IBM") (by decide),
   c7_ticker_filtering.2.2.2.1 (jstr "x-y") (.num 1) (by decide),
   c7_ticker_filtering.2.2.2.2 (jstr "tsla") (.str (jstr "zz")) (by simp) (by decide)⟩

/-!
## C9: idempotence of the JSON extractor on already-valid input

The extractor pipeline is `jsonExtract = cleanJsonString` then `safeParseJson`
with brace-match and repair fallbacks.  We show that on a valid JSON string
containing no typographic quote characters, `cleanJsonString` reduces to
`jsTrim`, and that re-parsing the trimmed string gives the same value, using
suffix bookkeeping about the trailing remainder of each sub-parser.
-/

def isSmartQuote (c : Char) : Bool :=
  c = lDq || c = rDq || c = lSq || c = rSq

theorem dropTrailingWs_prefix_self (l : JStr) : dropTrailingWs l <+: l := by
  unfold dropTrailingWs
  have h : l.reverse.dropWhile isJsWsChar <:+ l.reverse := List.dropWhile_suffix _
  obtain ⟨t, ht⟩ := h
  refine ⟨t.reverse, ?_⟩
  rw [← List.reverse_append, ht, List.reverse_reverse]

theorem head_jsTrim_not_ws {s : JStr} {c : Char} (h : (jsTrim s).head? = some c) :
    isJsWsChar c = false := by
  have hpre : jsTrim s <+: s.dropWhile isJsWsChar := dropTrailingWs_prefix_self _
  obtain ⟨t, ht⟩ := hpre
  have hx : (s.dropWhile isJsWsChar).head? = some c := by
    rcases hu : jsTrim s with _ | ⟨cc, u⟩
    · rw [hu] at h; simp at h
    · rw [hu] at h ht
      simp only [List.head?_cons, Option.some.injEq] at h
      rw [← ht, ← h]
      rfl
  have hd := List.head?_dropWhile_not isJsWsChar s
  rw [hx] at hd
  exact hd

theorem last_jsTrim_not_ws {s : JStr} {c : Char} (h : (jsTrim s).getLast? = some c) :
    isJsWsChar c = false := by
  unfold jsTrim dropTrailingWs at h
  rw [List.getLast?_reverse] at h
  have := List.head?_dropWhile_not isJsWsChar (s.dropWhile isJsWsChar).reverse
  rw [h] at this
  exact this

theorem dropWhile_eq_self_of_head {l : JStr} {c : Char}
    (h : l.head? = some c) (hc : isJsWsChar c = false) :
    l.dropWhile isJsWsChar = l := by
  rcases l with _ | ⟨d, rest⟩
  · rfl
  · simp only [List.head?_cons, Option.some.injEq] at h
    subst h
    simp [List.dropWhile_cons, hc]

theorem dropTrailingWs_eq_self {l : JStr} {c : Char}
    (h : l.getLast? = some c) (hc : isJsWsChar c = false) :
    dropTrailingWs l = l := by
  unfold dropTrailingWs
  have hrev : l.reverse.head? = some c := by
    rw [List.head?_reverse, h]
  rw [dropWhile_eq_self_of_head hrev hc, List.reverse_reverse]

theorem jsTrim_idem (s : JStr) : jsTrim (jsTrim s) = jsTrim s := by
  rcases hy : jsTrim s with _ | ⟨c, rest⟩
  · rfl
  · have hhead : (jsTrim s).head? = some c := by rw [hy]; rfl
    have hlast : ∃ d, (jsTrim s).getLast? = some d := by
      rw [hy]; exact ⟨(c :: rest).getLast (by simp), List.getLast?_eq_getLast _ _⟩
    obtain ⟨d, hd⟩ := hlast
    have h1 : (c :: rest).dropWhile isJsWsChar = c :: rest :=
      dropWhile_eq_self_of_head (hy ▸ hhead) (head_jsTrim_not_ws hhead)
    have h2 : dropTrailingWs (c :: rest) = c :: rest :=
      dropTrailingWs_eq_self (hy ▸ hd) (last_jsTrim_not_ws hd)
    show dropTrailingWs ((c :: rest).dropWhile isJsWsChar) = c :: rest
    rw [h1, h2]

theorem mem_jsTrim {s : JStr} {c : Char} (h : c ∈ jsTrim s) : c ∈ s := by
  have h1 : c ∈ s.dropWhile isJsWsChar := (dropTrailingWs_prefix_self _).subset h
  exact (List.dropWhile_suffix _).subset h1

/-- Characters that can end a successfully parsed JSON value. -/
def isValEnd (c : Char) : Bool :=
  c = '}' || c = ']' || c = '"' || c = 'e' || c = 'l' || isDigitChar c

theorem parseStrBody_suffix :
    ∀ (f : ℕ) (l acc s r : JStr), parseStrBody f l acc = some (s, r) →
      ('"' :: r) <:+ l := by
  intro f
  induction f with
  | zero => intro l acc s r h; simp [parseStrBody] at h
  | succ n ih =>
    intro l acc s r h
    rcases l with _ | ⟨c, rest⟩
    · simp [parseStrBody] at h
    · simp only [parseStrBody] at h
      by_cases h1 : c = '"'
      · rw [if_pos h1] at h
        obtain ⟨hs, hr⟩ := Prod.mk.injEq .. ▸ Option.some.inj h
        subst h1
        rw [hr]
      · rw [if_neg h1] at h
        by_cases h2 : c = '\\'
        · rw [if_pos h2] at h
          rcases rest with _ | ⟨e, r2⟩
          · simp at h
          · simp only [] at h
            by_cases h3 : e = '"' ∨ e = '\\' ∨ e = '/'
            · rw [if_pos h3] at h
              exact ((ih _ _ _ _ h).trans (List.suffix_cons _ _)).trans (List.suffix_cons _ _)
            · rw [if_neg h3] at h
              by_cases h4 : e = 'b'
              · rw [if_pos h4] at h
                exact ((ih _ _ _ _ h).trans (List.suffix_cons _ _)).trans (List.suffix_cons _ _)
              · rw [if_neg h4] at h
                by_cases h5 : e = 'f'
                · rw [if_pos h5] at h
                  exact ((ih _ _ _ _ h).trans (List.suffix_cons _ _)).trans (List.suffix_cons _ _)
                · rw [if_neg h5] at h
                  by_cases h6 : e = 'n'
                  · rw [if_pos h6] at h
                    exact ((ih _ _ _ _ h).trans (List.suffix_cons _ _)).trans (List.suffix_cons _ _)
                  · rw [if_neg h6] at h
                    by_cases h7 : e = 'r'
                    · rw [if_pos h7] at h
                      exact ((ih _ _ _ _ h).trans (List.suffix_cons _ _)).trans (List.suffix_cons _ _)
                    · rw [if_neg h7] at h
                      by_cases h8 : e = 't'
                      · rw [if_pos h8] at h
                        exact ((ih _ _ _ _ h).trans (List.suffix_cons _ _)).trans (List.suffix_cons _ _)
                      · rw [if_neg h8] at h
                        by_cases h9 : e = 'u'
                        · rw [if_pos h9] at h
                          rcases r2 with _ | ⟨x1, r2a⟩
                          · simp at h
                          · rcases r2a with _ | ⟨x2, r2b⟩
                            · simp at h
                            · rcases r2b with _ | ⟨x3, r2c⟩
                              · simp at h
                              · rcases r2c with _ | ⟨x4, r3⟩
                                · simp at h
                                · simp only [] at h
                                  rcases hx1 : hexDigitVal x1 with _ | d1 <;> rw [hx1] at h
                                  · simp at h
                                  · rcases hx2 : hexDigitVal x2 with _ | d2 <;> rw [hx2] at h
                                    · simp at h
                                    · rcases hx3 : hexDigitVal x3 with _ | d3 <;> rw [hx3] at h
                                      · simp at h
                                      · rcases hx4 : hexDigitVal x4 with _ | d4 <;> rw [hx4] at h
                                        · simp at h
                                        · refine (ih _ _ _ _ h).trans ?_
                                          refine (List.suffix_cons x4 r3).trans ?_
                                          refine (List.suffix_cons x3 _).trans ?_
                                          refine (List.suffix_cons x2 _).trans ?_
                                          refine (List.suffix_cons x1 _).trans ?_
                                          exact (List.suffix_cons e _).trans (List.suffix_cons c _)
                        · rw [if_neg h9] at h
                          simp at h
        · rw [if_neg h2] at h
          by_cases hctl : c.toNat < 32
          · rw [if_pos hctl] at h
            simp at h
          · rw [if_neg hctl] at h
            exact (ih _ _ _ _ h).trans (List.suffix_cons _ _)

theorem takeWhile_digits_suffix {r1 r : JStr}
    (heds : ¬ r1.takeWhile isDigitChar = [])
    (hr : r = r1.dropWhile isDigitChar) :
    ∃ c, isDigitChar c = true ∧ (c :: r) <:+ r1 := by
  set eds := r1.takeWhile isDigitChar with heq
  have hdec : eds.dropLast ++ [eds.getLast heds] = eds := List.dropLast_append_getLast heds
  refine ⟨eds.getLast heds, ?_, ?_⟩
  · have hmem : eds.getLast heds ∈ r1.takeWhile isDigitChar := by
      rw [← heq]; exact List.getLast_mem heds
    exact List.mem_takeWhile_imp hmem
  · refine ⟨eds.dropLast, ?_⟩
    rw [hr]
    calc eds.dropLast ++ eds.getLast heds :: r1.dropWhile isDigitChar
        = (eds.dropLast ++ [eds.getLast heds]) ++ r1.dropWhile isDigitChar := by
          rw [List.append_assoc]; rfl
      _ = eds ++ r1.dropWhile isDigitChar := by rw [hdec]
      _ = r1 := List.takeWhile_append_dropWhile _ _

theorem parseExpSuffix_suffix {v v' : ℚ} {l r : JStr}
    (h : parseExpSuffix v l = some (v', r)) :
    r = l ∨ ∃ c, isDigitChar c = true ∧ (c :: r) <:+ l := by
  rcases l with _ | ⟨c, rest⟩
  · simp only [parseExpSuffix, Option.some.injEq, Prod.mk.injEq] at h
    exact Or.inl h.2.symm
  · simp only [parseExpSuffix] at h
    by_cases hc : c = 'e' ∨ c = 'E'
    · rw [if_pos hc] at h
      rcases rest with _ | ⟨d, rr⟩
      · simp only [] at h
        split at h
        · exact absurd h (by simp)
        · rename_i heds
          obtain ⟨_, hr⟩ := Prod.mk.injEq .. ▸ Option.some.inj h
          obtain ⟨cd, hcd, hsuf⟩ := takeWhile_digits_suffix heds hr.symm
          exact Or.inr ⟨cd, hcd, hsuf.trans (List.suffix_cons _ _)⟩
      · simp only [] at h
        by_cases hd1 : d = '+'
        · rw [if_pos hd1] at h
          simp only [] at h
          split at h
          · exact absurd h (by simp)
          · rename_i heds
            obtain ⟨_, hr⟩ := Prod.mk.injEq .. ▸ Option.some.inj h
            obtain ⟨cd, hcd, hsuf⟩ := takeWhile_digits_suffix heds hr.symm
            exact Or.inr ⟨cd, hcd, (hsuf.trans (List.suffix_cons _ _)).trans (List.suffix_cons _ _)⟩
        · rw [if_neg hd1] at h
          by_cases hd2 : d = '-'
          · rw [if_pos hd2] at h
            simp only [] at h
            split at h
            · exact absurd h (by simp)
            · rename_i heds
              obtain ⟨_, hr⟩ := Prod.mk.injEq .. ▸ Option.some.inj h
              obtain ⟨cd, hcd, hsuf⟩ := takeWhile_digits_suffix heds hr.symm
              exact Or.inr ⟨cd, hcd, (hsuf.trans (List.suffix_cons _ _)).trans (List.suffix_cons _ _)⟩
          · rw [if_neg hd2] at h
            simp only [] at h
            split at h
            · exact absurd h (by simp)
            · rename_i heds
              obtain ⟨_, hr⟩ := Prod.mk.injEq .. ▸ Option.some.inj h
              obtain ⟨cd, hcd, hsuf⟩ := takeWhile_digits_suffix heds hr.symm
              exact Or.inr ⟨cd, hcd, hsuf.trans (List.suffix_cons _ _)⟩
    · rw [if_neg hc] at h
      obtain ⟨_, hr⟩ := Prod.mk.injEq .. ▸ Option.some.inj h
      exact Or.inl hr.symm

theorem parseNumber_core_end {l1 r : JStr} {q : ℚ} (A : ℚ) (B : JStr → ℚ)
    (hip : ¬ l1.takeWhile isDigitChar = [])
    (h : (match l1.dropWhile isDigitChar with
          | c2 :: r2 =>
            if c2 = '.' then
              if r2.takeWhile isDigitChar = [] then none
              else parseExpSuffix (B r2) (r2.dropWhile isDigitChar)
            else parseExpSuffix A (c2 :: r2)
          | [] => parseExpSuffix A []) = some (q, r)) :
    ∃ c, isDigitChar c = true ∧ (c :: r) <:+ l1 := by
  rcases hl2 : l1.dropWhile isDigitChar with _ | ⟨c2, r2⟩ <;> rw [hl2] at h <;>
    simp only [] at h
  · rcases parseExpSuffix_suffix h with hr | ⟨c, hc, hsuf⟩
    · subst hr
      obtain ⟨c, hc, hsuf⟩ := takeWhile_digits_suffix hip hl2.symm
      exact ⟨c, hc, hsuf⟩
    · exact absurd hsuf.length_le (by simp)
  · by_cases hdot : c2 = '.'
    · rw [if_pos hdot] at h
      split at h
      · exact absurd h (by simp)
      · rename_i hfds
        rcases parseExpSuffix_suffix h with hr | ⟨c, hc, hsuf⟩
        · subst hr
          obtain ⟨c, hc, hsuf⟩ := takeWhile_digits_suffix hfds rfl
          refine ⟨c, hc, ?_⟩
          refine (hsuf.trans (List.suffix_cons c2 r2)).trans ?_
          rw [← hl2]
          exact List.dropWhile_suffix _
        · refine ⟨c, hc, ?_⟩
          refine hsuf.trans ?_
          refine (List.dropWhile_suffix _).trans ?_
          refine (List.suffix_cons c2 r2).trans ?_
          rw [← hl2]
          exact List.dropWhile_suffix _
    · rw [if_neg hdot] at h
      rcases parseExpSuffix_suffix h with hr | ⟨c, hc, hsuf⟩
      · subst hr
        obtain ⟨c, hc, hsuf⟩ := takeWhile_digits_suffix hip hl2.symm
        exact ⟨c, hc, hsuf⟩
      · refine ⟨c, hc, ?_⟩
        refine hsuf.trans ?_
        rw [← hl2]
        exact List.dropWhile_suffix _

theorem parseNumber_end {l r : JStr} {q : ℚ} (h : parseNumber l = some (q, r)) :
    ∃ c, isDigitChar c = true ∧ (c :: r) <:+ l := by
  simp only [parseNumber] at h
  rcases l with _ | ⟨c, rest⟩
  · simp only [] at h
    split at h
    · exact absurd h (by simp)
    · split at h
      · exact absurd h (by simp)
      · rename_i hip _
        exact absurd rfl hip
  · simp only [] at h
    by_cases hneg : c = '-'
    · rw [if_pos hneg] at h
      simp only [] at h
      split at h
      · exact absurd h (by simp)
      · split at h
        · exact absurd h (by simp)
        · rename_i hip _
          obtain ⟨cd, hcd, hsuf⟩ := parseNumber_core_end _ _ hip h
          exact ⟨cd, hcd, hsuf.trans (List.suffix_cons _ _)⟩
    · rw [if_neg hneg] at h
      simp only [] at h
      split at h
      · exact absurd h (by simp)
      · split at h
        · exact absurd h (by simp)
        · rename_i hip _
          exact parseNumber_core_end _ _ hip h

theorem parseNumber_head {l r : JStr} {q : ℚ} {c : Char} (h : parseNumber l = some (q, r))
    (hc : l.head? = some c) : c = '-' ∨ isDigitChar c = true := by
  rcases l with _ | ⟨d, rest⟩
  · simp at hc
  · simp only [List.head?_cons, Option.some.injEq] at hc
    subst hc
    by_cases hneg : d = '-'
    · exact Or.inl hneg
    · right
      simp only [parseNumber] at h
      rw [if_neg hneg] at h
      simp only [] at h
      split at h
      · exact absurd h (by simp)
      · rename_i hip
        by_contra hdig
        apply hip
        rw [List.takeWhile_cons]
        simp only [Bool.not_eq_true] at hdig
        simp [hdig]

theorem suffix_of_skipWs_eq {x r : JStr} {d : Char} (h : skipWs x = d :: r) :
    (d :: r) <:+ x := by
  rw [← h]; exact List.dropWhile_suffix _

theorem tail_suffix_of_cons {c : Char} {r l : JStr} (h : (c :: r) <:+ l) : r <:+ l :=
  (List.suffix_cons c r).trans h

theorem parseJ_end : ∀ f : ℕ,
    (∀ l v r, parseJ f (.val l) = some (v, r) → ∃ c, isValEnd c = true ∧ (c :: r) <:+ l) ∧
    (∀ l acc v r, parseJ f (.members l acc) = some (v, r) → ('}' :: r) <:+ l) ∧
    (∀ l acc v r, parseJ f (.elems l acc) = some (v, r) → (']' :: r) <:+ l) := by
  intro f
  induction f with
  | zero =>
    refine ⟨?_, ?_, ?_⟩ <;> intro l <;> intros <;> simp [parseJ] at *
  | succ n ih =>
    obtain ⟨ihv, ihm, ihe⟩ := ih
    refine ⟨?_, ?_, ?_⟩
    · intro l v r h
      rcases l with _ | ⟨c, rest⟩
      · simp [parseJ] at h
      · simp only [parseJ] at h
        by_cases h1 : c = '{'
        · rw [if_pos h1] at h
          rcases hsw : skipWs rest with _ | ⟨d, l2⟩ <;> rw [hsw] at h
          · simp at h
          · simp only [] at h
            by_cases h2 : d = '}'
            · rw [if_pos h2] at h
              obtain ⟨_, hr⟩ := Prod.mk.injEq .. ▸ Option.some.inj h
              subst h2
              refine ⟨'}', by decide, ?_⟩
              rw [← hr]
              exact (suffix_of_skipWs_eq hsw).trans (List.suffix_cons c rest)
            · rw [if_neg h2] at h
              refine ⟨'}', by decide, ?_⟩
              exact ((ihm _ _ _ _ h).trans (suffix_of_skipWs_eq hsw)).trans
                (List.suffix_cons c rest)
        · rw [if_neg h1] at h
          by_cases h2 : c = '['
          · rw [if_pos h2] at h
            rcases hsw : skipWs rest with _ | ⟨d, l2⟩ <;> rw [hsw] at h
            · simp at h
            · simp only [] at h
              by_cases h3 : d = ']'
              · rw [if_pos h3] at h
                obtain ⟨_, hr⟩ := Prod.mk.injEq .. ▸ Option.some.inj h
                subst h3
                refine ⟨']', by decide, ?_⟩
                rw [← hr]
                exact (suffix_of_skipWs_eq hsw).trans (List.suffix_cons c rest)
              · rw [if_neg h3] at h
                refine ⟨']', by decide, ?_⟩
                exact ((ihe _ _ _ _ h).trans (suffix_of_skipWs_eq hsw)).trans
                  (List.suffix_cons c rest)
          · rw [if_neg h2] at h
            by_cases h3 : c = '"'
            · rw [if_pos h3] at h
              rcases hsb : parseStrBody n rest [] with _ | ⟨s', r'⟩ <;> rw [hsb] at h
              · simp at h
              · simp only [Option.map_some', Option.some.injEq] at h
                obtain ⟨_, hr⟩ := Prod.mk.injEq .. ▸ h
                refine ⟨'"', by decide, ?_⟩
                rw [← hr]
                exact (parseStrBody_suffix _ _ _ _ _ hsb).trans (List.suffix_cons c rest)
            · rw [if_neg h3] at h
              by_cases h4 : c = 't'
              · rw [if_pos h4] at h
                split at h
                · rename_i htake
                  obtain ⟨_, hr⟩ := Prod.mk.injEq .. ▸ Option.some.inj h
                  have hsplit : rest = ['r', 'u', 'e'] ++ rest.drop 3 := by
                    conv_lhs => rw [← List.take_append_drop 3 rest]
                    rw [htake]
                  refine ⟨'e', by decide, ?_⟩
                  refine List.IsSuffix.trans ?_ (List.suffix_cons c rest)
                  rw [hsplit, hr]
                  exact ⟨['r', 'u'], rfl⟩
                · exact absurd h (by simp)
              · rw [if_neg h4] at h
                by_cases h5 : c = 'f'
                · rw [if_pos h5] at h
                  split at h
                  · rename_i htake
                    obtain ⟨_, hr⟩ := Prod.mk.injEq .. ▸ Option.some.inj h
                    have hsplit : rest = ['a', 'l', 's', 'e'] ++ rest.drop 4 := by
                      conv_lhs => rw [← List.take_append_drop 4 rest]
                      rw [htake]
                    refine ⟨'e', by decide, ?_⟩
                    refine List.IsSuffix.trans ?_ (List.suffix_cons c rest)
                    rw [hsplit, hr]
                    exact ⟨['a', 'l', 's'], rfl⟩
                  · exact absurd h (by simp)
                · rw [if_neg h5] at h
                  by_cases h6 : c = 'n'
                  · rw [if_pos h6] at h
                    split at h
                    · rename_i htake
                      obtain ⟨_, hr⟩ := Prod.mk.injEq .. ▸ Option.some.inj h
                      have hsplit : rest = ['u', 'l', 'l'] ++ rest.drop 3 := by
                        conv_lhs => rw [← List.take_append_drop 3 rest]
                        rw [htake]
                      refine ⟨'l', by decide, ?_⟩
                      refine List.IsSuffix.trans ?_ (List.suffix_cons c rest)
                      rw [hsplit, hr]
                      exact ⟨['u', 'l'], rfl⟩
                    · exact absurd h (by simp)
                  · rw [if_neg h6] at h
                    rcases hpn : parseNumber (c :: rest) with _ | ⟨q', r'⟩ <;> rw [hpn] at h
                    · simp at h
                    · simp only [Option.map_some', Option.some.injEq] at h
                      obtain ⟨_, hr⟩ := Prod.mk.injEq .. ▸ h
                      obtain ⟨cd, hcd, hsuf⟩ := parseNumber_end hpn
                      refine ⟨cd, by simp [isValEnd, hcd], ?_⟩
                      rw [← hr]
                      exact hsuf
    · intro l acc v r h
      rcases l with _ | ⟨c, rest⟩
      · simp [parseJ] at h
      · simp only [parseJ] at h
        by_cases h1 : c = '"'
        · rw [if_pos h1] at h
          rcases hsb : parseStrBody n rest [] with _ | ⟨k, r1⟩ <;> rw [hsb] at h
          · simp at h
          · simp only [] at h
            rcases hsw1 : skipWs r1 with _ | ⟨d, r2⟩ <;> rw [hsw1] at h
            · simp at h
            · simp only [] at h
              by_cases h2 : d = ':'
              · rw [if_pos h2] at h
                rcases hpv : parseJ n (.val (skipWs r2)) with _ | ⟨p⟩ <;> rw [hpv] at h
                · simp at h
                · obtain ⟨v1, r3⟩ := p
                  simp only [] at h
                  rcases hsw3 : skipWs r3 with _ | ⟨e, r4⟩ <;> rw [hsw3] at h
                  · simp at h
                  · simp only [] at h
                    have hr3chain : r3 <:+ rest := by
                      obtain ⟨cd, _, hsufv⟩ := ihv _ _ _ hpv
                      refine (tail_suffix_of_cons hsufv).trans ?_
                      refine (List.dropWhile_suffix _).trans ?_
                      refine (tail_suffix_of_cons (suffix_of_skipWs_eq hsw1)).trans ?_
                      exact tail_suffix_of_cons (parseStrBody_suffix _ _ _ _ _ hsb)
                    by_cases h3 : e = ','
                    · rw [if_pos h3] at h
                      refine ((ihm _ _ _ _ h).trans ?_).trans (List.suffix_cons c rest)
                      refine (List.dropWhile_suffix _).trans ?_
                      refine (tail_suffix_of_cons (suffix_of_skipWs_eq hsw3)).trans hr3chain
                    · rw [if_neg h3] at h
                      by_cases h4 : e = '}'
                      · rw [if_pos h4] at h
                        obtain ⟨_, hr⟩ := Prod.mk.injEq .. ▸ Option.some.inj h
                        subst h4
                        rw [← hr]
                        exact ((suffix_of_skipWs_eq hsw3).trans hr3chain).trans
                          (List.suffix_cons c rest)
                      · rw [if_neg h4] at h
                        simp at h
              · rw [if_neg h2] at h
                simp at h
        · rw [if_neg h1] at h
          simp at h
    · intro l acc v r h
      simp only [parseJ] at h
      rcases hpv : parseJ n (.val l) with _ | ⟨p⟩ <;> rw [hpv] at h
      · simp at h
      · obtain ⟨v1, r1⟩ := p
        simp only [] at h
        rcases hsw1 : skipWs r1 with _ | ⟨e, r2⟩ <;> rw [hsw1] at h
        · simp at h
        · simp only [] at h
          have hr1chain : r1 <:+ l := by
            obtain ⟨cd, _, hsufv⟩ := ihv _ _ _ hpv
            exact tail_suffix_of_cons hsufv
          by_cases h3 : e = ','
          · rw [if_pos h3] at h
            refine (ihe _ _ _ _ h).trans ?_
            refine (List.dropWhile_suffix _).trans ?_
            exact (tail_suffix_of_cons (suffix_of_skipWs_eq hsw1)).trans hr1chain
          · rw [if_neg h3] at h
            by_cases h4 : e = ']'
            · rw [if_pos h4] at h
              obtain ⟨_, hr⟩ := Prod.mk.injEq .. ▸ Option.some.inj h
              subst h4
              rw [← hr]
              exact (suffix_of_skipWs_eq hsw1).trans hr1chain
            · rw [if_neg h4] at h
              simp at h

theorem parseJ_head {f : ℕ} {t : JStr} {v : JsVal} {r : JStr} {c : Char}
    (h : parseJ f (.val t) = some (v, r)) (hc : t.head? = some c) :
    c = '{' ∨ c = '[' ∨ c = '"' ∨ c = 't' ∨ c = 'f' ∨ c = 'n' ∨
      c = '-' ∨ isDigitChar c = true := by
  rcases f with _ | n
  · simp [parseJ] at h
  · rcases t with _ | ⟨d, rest⟩
    · simp at hc
    · simp only [List.head?_cons, Option.some.injEq] at hc
      rw [hc] at h
      simp only [parseJ] at h
      by_cases h1 : c = '{'
      · exact Or.inl h1
      · rw [if_neg h1] at h
        by_cases h2 : c = '['
        · exact Or.inr (Or.inl h2)
        · rw [if_neg h2] at h
          by_cases h3 : c = '"'
          · exact Or.inr (Or.inr (Or.inl h3))
          · rw [if_neg h3] at h
            by_cases h4 : c = 't'
            · exact Or.inr (Or.inr (Or.inr (Or.inl h4)))
            · rw [if_neg h4] at h
              by_cases h5 : c = 'f'
              · exact Or.inr (Or.inr (Or.inr (Or.inr (Or.inl h5))))
              · rw [if_neg h5] at h
                by_cases h6 : c = 'n'
                · exact Or.inr (Or.inr (Or.inr (Or.inr (Or.inr (Or.inl h6)))))
                · rw [if_neg h6] at h
                  rcases hpn : parseNumber (c :: rest) with _ | p <;> rw [hpn] at h
                  · simp at h
                  · obtain ⟨q', r'⟩ := p
                    rcases parseNumber_head hpn rfl with hm | hd
                    · exact Or.inr (Or.inr (Or.inr (Or.inr (Or.inr (Or.inr (Or.inl hm))))))
                    · exact Or.inr (Or.inr (Or.inr (Or.inr (Or.inr (Or.inr (Or.inr hd))))))

theorem stripFenceJson_eq_self {l : JStr} (h : l.head? ≠ some btick) :
    stripFenceJson l = l := by
  unfold stripFenceJson
  split
  · split
    · rename_i hcond
      exact absurd (by rw [List.head?_cons, hcond.1]) h
    · rfl
  · rfl

theorem stripFenceBare_eq_self {l : JStr} (h : l.head? ≠ some btick) :
    stripFenceBare l = l := by
  unfold stripFenceBare
  split
  · split
    · rename_i hcond
      exact absurd (by rw [List.head?_cons, hcond.1]) h
    · rfl
  · rfl

theorem stripFenceEnd_eq_self {l : JStr} (hlast : l.getLast? ≠ some btick)
    (htr : dropTrailingWs l = l) : stripFenceEnd l = l := by
  unfold stripFenceEnd
  simp only [htr]
  split
  · rename_i b1 b2 b3 rest heq
    split
    · rename_i hcond
      refine absurd ?_ hlast
      rw [← List.head?_reverse, heq, List.head?_cons, hcond.1]
    · rfl
  · rfl

theorem map_deSmart_id {l : JStr} (h : ∀ c ∈ l, isSmartQuote c = false) :
    l.map deSmartQuote = l := by
  have hid : ∀ c ∈ l, deSmartQuote c = id c := by
    intro c hc
    have := h c hc
    simp only [isSmartQuote, Bool.or_eq_false_iff, decide_eq_false_iff_not] at this
    simp [deSmartQuote, this.1.1.1, this.1.1.2, this.1.2, this.2]
  rw [List.map_congr_left hid, List.map_id]

theorem cleanJson_eq_trim {s : JStr} (hs : ¬ s = [])
    (hq : ∀ c ∈ s, isSmartQuote c = false)
    (hhead : (jsTrim s).head? ≠ some btick)
    (hlast : (jsTrim s).getLast? ≠ some btick) :
    cleanJsonString s = jsTrim s := by
  unfold cleanJsonString
  rw [if_neg hs]
  rcases hemp : jsTrim s with _ | ⟨c, rest⟩
  · rfl
  · have htr : dropTrailingWs (jsTrim s) = jsTrim s := by
      have hne : jsTrim s ≠ [] := by rw [hemp]; simp
      have hlast2 : (jsTrim s).getLast? = some ((jsTrim s).getLast hne) :=
        List.getLast?_eq_getLast _ _
      exact dropTrailingWs_eq_self hlast2 (last_jsTrim_not_ws hlast2)
    rw [← hemp]
    simp only []
    rw [stripFenceJson_eq_self hhead, stripFenceBare_eq_self hhead,
      stripFenceEnd_eq_self hlast htr, jsTrim_idem]
    apply map_deSmart_id
    intro c hc
    exact hq c (mem_jsTrim hc)

/-- C9: Extraction is idempotent on valid input, amended to inputs free of
typographic quotes: if a string contains none of the smart-quote characters
U+201C, U+201D, U+2018, U+2019 and already parses as valid JSON, then the JSON
extractor (cleanJsonString followed by parse, with the brace-match and
tryRepairs fallbacks) returns exactly the object the direct parse returns.
The smart-quote restriction is necessary: cleanJsonString rewrites typographic
quotes to ASCII quotes even inside valid JSON string literals, changing the
parsed value (see the counterexample). -/
theorem c9_extract_idempotent (s : JStr) (v : JsVal)
    (hq : ∀ c ∈ s, isSmartQuote c = false)
    (hp : jsonParse s = some v) :
    jsonExtract s = some v := by
  have hs : ¬ s = [] := by
    rintro rfl
    rw [show jsonParse [] = none from rfl] at hp
    exact absurd hp (by simp)
  unfold jsonParse at hp
  simp only [] at hp
  rcases hpv : parseValue (2 * (jsTrim s).length + 2) (jsTrim s) with _ | p <;>
    rw [hpv] at hp
  · simp at hp
  · obtain ⟨v0, r⟩ := p
    simp only [] at hp
    split at hp
    · rename_i hall
      obtain rfl : v0 = v := Option.some.inj hp
      obtain ⟨c, hcend, hsuf⟩ := (parseJ_end _).1 _ _ _ hpv
      have htne : jsTrim s ≠ [] := by
        rintro hemp
        rw [hemp] at hpv
        simp [parseValue, parseJ] at hpv
      have hrnil : r = [] := by
        rcases hr : r with _ | ⟨x, xs⟩
        · rfl
        · exfalso
          have hrne : r ≠ [] := by rw [hr]; simp
          obtain ⟨pre, hpre⟩ := tail_suffix_of_cons hsuf
          obtain ⟨d, hd⟩ : ∃ d, r.getLast? = some d :=
            ⟨r.getLast hrne, List.getLast?_eq_getLast _ _⟩
          have hlastt : (jsTrim s).getLast? = some d := by
            rw [← hpre, List.getLast?_append, hd]
            rfl
          have hdnws := last_jsTrim_not_ws hlastt
          have hdws : isJsWsChar d = true :=
            List.all_eq_true.1 hall d (List.mem_of_getLast?_eq_some hd)
          rw [hdws] at hdnws
          exact absurd hdnws (by simp)
      subst hrnil
      obtain ⟨pre, hpre⟩ := hsuf
      have hlastc : (jsTrim s).getLast? = some c := by
        rw [← hpre]
        exact List.getLast?_concat _
      obtain ⟨c0, hc0⟩ : ∃ c0, (jsTrim s).head? = some c0 := by
        rcases hemp : jsTrim s with _ | ⟨c0, rest⟩
        · exact absurd hemp htne
        · exact ⟨c0, rfl⟩
      have hHS := parseJ_head hpv hc0
      have hheadne : (jsTrim s).head? ≠ some btick := by
        rw [hc0]
        intro hbt
        obtain rfl : c0 = btick := Option.some.inj hbt
        rcases hHS with h | h | h | h | h | h | h | h <;> exact absurd h (by decide)
      have hlastne : (jsTrim s).getLast? ≠ some btick := by
        rw [hlastc]
        intro hbt
        obtain rfl : c = btick := Option.some.inj hbt
        exact absurd hcend (by decide)
      have hclean := cleanJson_eq_trim hs hq hheadne hlastne
      have hparse2 : jsonParse (jsTrim s) = some v0 := by
        unfold jsonParse
        simp only [jsTrim_idem]
        rw [hpv]
        rfl
      unfold jsonExtract
      simp only [hclean]
      unfold safeParseJson
      rw [hparse2]
    · simp at hp


/-- C9 counterexample: the string `"\u2019"` (a double-quoted right single
typographic quote) is valid JSON parsing to the one-character string U+2019,
but the extractor rewrites the smart quote to an ASCII apostrophe before
parsing, so it returns the different string `'`. Extraction is therefore not
idempotent on all valid JSON input. -/
theorem c9_smart_quote_counterexample :
    jsonParse ['"', rSq, '"'] = some (.str [rSq]) ∧
    jsonExtract ['"', rSq, '"'] = some (.str [apos]) ∧
    JsVal.str [rSq] ≠ JsVal.str [apos] := by
  refine ⟨rfl, rfl, ?_⟩
  simp only [JsVal.str.injEq, List.cons.injEq, and_true, ne_eq]
  decide

theorem c9_extract_idempotent_witness :
    (∀ c ∈ jstr "7", isSmartQuote c = false) ∧
      jsonExtract (jstr "7") = some (.num 7) :=
  ⟨by decide, c9_extract_idempotent (jstr "7") (.num 7) (by decide) rfl⟩
